import Mathlib

/-!
Verification of the FluentWhisper concept-graph construction pipeline.

The Python sources are shallowly embedded here:
* `scripts/build_concepts_db.py` — lemma canonicalizer (`_extract_english_lemma`),
  the concept clusterer (`build_concepts_from_translations`), the lexicon
  extraction (`extract_forms_and_lemmas`) and the store assembly
  (`create_concepts_db`).
* `scripts/build_translations.py` and `scripts/build_translations_bidirectional.py`
  — the gloss classifiers (`is_inflected_form_definition`, `is_technical_definition`),
  the direction augmenter (the threshold branch of `main`) and
  `reverse_translations`.

Python strings are modelled as `List Char` (a Lean `Char` is a Unicode code
point, matching Python's per-code-point view of `str`).  `str.lower` is
modelled on ASCII letters (the glosses under test are ASCII; Python also
lowercases non-ASCII uppercase, which none of the verified properties touch).
`str.strip()` is modelled with Lean's `Char.isWhitespace` whitespace class.
-/

set_option maxRecDepth 40000

namespace FluentWhisper

/-- First-match association lookup over character pairs (general `alookup`
is defined with the concept data model below; this small copy keeps the
string layer self-contained). -/
def clookup (k : Char) : List (Char × Char) → Option Char
  | [] => none
  | p :: rest => if p.1 = k then some p.2 else clookup k rest

/-- The ASCII uppercase-to-lowercase table. -/
def upperLowerTable : List (Char × Char) :=
  [('A', 'a'), ('B', 'b'), ('C', 'c'), ('D', 'd'), ('E', 'e'), ('F', 'f'),
   ('G', 'g'), ('H', 'h'), ('I', 'i'), ('J', 'j'), ('K', 'k'), ('L', 'l'),
   ('M', 'm'), ('N', 'n'), ('O', 'o'), ('P', 'p'), ('Q', 'q'), ('R', 'r'),
   ('S', 's'), ('T', 't'), ('U', 'u'), ('V', 'v'), ('W', 'w'), ('X', 'x'),
   ('Y', 'y'), ('Z', 'z')]

/-- ASCII lowercasing of one character, modelling Python `str.lower` per
character (identity outside A–Z). -/
def pyLowerChar (c : Char) : Char := (clookup c upperLowerTable).getD c

/-- Python `s.lower()`. -/
def pyLower (l : List Char) : List Char := l.map pyLowerChar

/-- Python `s.strip()` (whitespace strip on both ends). -/
def pyStrip (l : List Char) : List Char :=
  ((l.dropWhile Char.isWhitespace).reverse.dropWhile Char.isWhitespace).reverse

/-- Python `c in s` for a single character. -/
def containsChar (c : Char) (l : List Char) : Bool := l.any (fun d => d == c)

/-- Python `pat in s` (substring containment). -/
def containsSub (pat : List Char) : List Char → Bool
  | [] => pat.isPrefixOf ([] : List Char)
  | c :: rest => pat.isPrefixOf (c :: rest) || containsSub pat rest

/-- Python `s.split(',')[-1]`: the substring after the last comma (the whole
string when no comma occurs). -/
def afterLastComma (l : List Char) : List Char :=
  (l.reverse.takeWhile (fun c => !(c == ','))).reverse

/-- The jargon-substitution marker table of `_extract_english_lemma`
(`build_concepts_db.py` lines 260–269). -/
def jargon_patterns : List (List Char) :=
  [ "apocopic form of".data, "feminine form of".data, "masculine form of".data,
    "plural form of".data, "diminutive of".data, "augmentative of".data,
    "alternative form of".data, "archaic form of".data ]

/-- Step 1 of `_extract_english_lemma`: strip a leading `"to "`. -/
def toStep (t : List Char) : List Char :=
  if ("to ".data).isPrefixOf t then t.drop 3 else t

/-- Step 2: truncate at the first `'('` and strip (`split('(')[0].strip()`). -/
def parenStep (t : List Char) : List Char :=
  if containsChar '(' t then pyStrip (t.takeWhile (fun c => !(c == '('))) else t

/-- Step 3: if some jargon marker occurs in the lowercased text and the text
contains a comma, keep the (stripped) substring after the last comma.  In the
Python loop the replacement only fires when a comma is present; which marker
matched does not influence the result, so the loop is equivalent to this
single conditional. -/
def jargonStep (t : List Char) : List Char :=
  if (jargon_patterns.any (fun p => containsSub p (pyLower t))) && containsChar ',' t then
    pyStrip (afterLastComma t)
  else t

/-- Step 4: truncate at the first separator, trying `','`, then `';'`, then
`'/'` — the Python loop breaks at the first separator *present in the
string*, and splits at that separator's first occurrence. -/
def sepStep (t : List Char) : List Char :=
  if containsChar ',' t then pyStrip (t.takeWhile (fun c => !(c == ',')))
  else if containsChar ';' t then pyStrip (t.takeWhile (fun c => !(c == ';')))
  else if containsChar '/' t then pyStrip (t.takeWhile (fun c => !(c == '/')))
  else t

/-- `ConceptDBBuilder._extract_english_lemma` on character lists. -/
def extractLemmaChars (t : List Char) : List Char :=
  pyStrip (pyLower (sepStep (jargonStep (parenStep (toStep t)))))

/-- `ConceptDBBuilder._extract_english_lemma` (`build_concepts_db.py`
lines 237–288): canonicalize a gloss string to a single English lemma. -/
def _extract_english_lemma (s : String) : String :=
  ⟨extractLemmaChars s.data⟩

/-! ### A small regular-expression engine

The classifiers use `re.search` with a fixed pattern table.  The patterns
only use literals, `^`, `$`, `\b`, `\w+`, non-greedy `.+?`, alternations of
literal words, and one starred group `(/\w+)*`; the engine below covers
exactly these.  `re.search` only asks whether *some* match exists, so greedy
versus non-greedy repetition is irrelevant and the engine enumerates all
match end-states.  `\w` is modelled as ASCII alphanumerics, `'_'`, and any
non-ASCII character (Python's `\w` is Unicode-aware; the only non-ASCII
characters in the verified inputs are letters). -/

/-- Word character class for `\b` and `\w`. -/
def isWordChar (c : Char) : Bool := c.isAlphanum || c == '_' || decide (128 ≤ c.toNat)

/-- Abstract syntax of the needed regular-expression fragment. -/
inductive RE where
  | fail : RE
  | eps : RE
  | litC : List Char → RE
  | anyPlus : RE
  | wordPlus : RE
  | bnd : RE
  | bos : RE
  | eos : RE
  | alt : RE → RE → RE
  | cat : RE → RE → RE
  | slashWordStar : RE
deriving Repr

/-- Match states are (last consumed character, remaining input); the previous
character drives `\b` and `^`. -/
abbrev MState := Option Char × List Char

/-- Consume one or more arbitrary characters (`.+?`); all possible remainders. -/
def consumeSome (_prev : Option Char) : List Char → List MState
  | [] => []
  | c :: rest => (some c, rest) :: consumeSome (some c) rest

/-- Consume one or more word characters (`\w+`); all possible remainders. -/
def wordConsume (_prev : Option Char) : List Char → List MState
  | [] => []
  | c :: rest =>
    if isWordChar c then (some c, rest) :: wordConsume (some c) rest else []

/-- Is the position between `prev` and the head of the remaining input a
word boundary (`\b`)? -/
def atBoundary (prev : Option Char) (s : List Char) : Bool :=
  let pw := match prev with | none => false | some c => isWordChar c
  let nw := match s with | [] => false | c :: _ => isWordChar c
  pw != nw

/-- All end-states of repeating the group `/\w+` zero or more times
(fuel-bounded; each repetition consumes at least two characters, so fuel
equal to the input length is exhaustive). -/
def slashWordReps (prev : Option Char) (s : List Char) : Nat → List MState
  | 0 => [(prev, s)]
  | fuel + 1 =>
    (prev, s) ::
      (match s with
       | '/' :: rest =>
         (wordConsume (some '/') rest).flatMap (fun st => slashWordReps st.1 st.2 fuel)
       | _ => [])

/-- All end-states of matching `re` at the given state. -/
def reEnds : RE → Option Char → List Char → List MState
  | RE.fail, _, _ => []
  | RE.eps, prev, s => [(prev, s)]
  | RE.litC l, prev, s =>
    if l.isPrefixOf s then
      [(match l.getLast? with | some c => some c | none => prev, s.drop l.length)]
    else []
  | RE.anyPlus, prev, s => consumeSome prev s
  | RE.wordPlus, prev, s => wordConsume prev s
  | RE.bnd, prev, s => if atBoundary prev s then [(prev, s)] else []
  | RE.bos, prev, s => (match prev with | none => [(prev, s)] | some _ => [])
  | RE.eos, prev, s => (match s with | [] => [(prev, s)] | _ :: _ => [])
  | RE.alt a b, prev, s => reEnds a prev s ++ reEnds b prev s
  | RE.cat a b, prev, s => (reEnds a prev s).flatMap (fun st => reEnds b st.1 st.2)
  | RE.slashWordStar, prev, s => slashWordReps prev s s.length

/-- All start states (every position of the input, with its left context). -/
def startStates (prev : Option Char) : List Char → List MState
  | [] => [(prev, [])]
  | c :: rest => (prev, c :: rest) :: startStates (some c) rest

/-- Python `re.search(pattern, s) is not None`. -/
def reSearch (re : RE) (s : List Char) : Bool :=
  (startStates none s).any (fun st => !(reEnds re st.1 st.2).isEmpty)

/-- Literal pattern text. -/
def rlit (s : String) : RE := RE.litC s.data

/-- Alternation group of literal words, e.g. `(singular|plural)`. -/
def raltOf (ws : List String) : RE :=
  ws.foldr (fun w r => RE.alt (rlit w) r) RE.fail

/-- Concatenation of a pattern sequence. -/
def rseq (rs : List RE) : RE := rs.foldr RE.cat RE.eps

/-! ### The Gloss Classifier of `build_translations.py` -/

namespace BuildTranslations

/-- The keyword table of `is_inflected_form_definition`
(`build_translations.py` lines 115–134). -/
def inflection_keywords : List (List Char) :=
  [ "inflection of".data, "plural of".data, "singular of".data,
    "masculine of".data, "feminine of".data, "past participle of".data,
    "gerund of".data, "present participle of".data, "imperative of".data,
    "combined with".data, "alternative spelling of".data,
    "alternative form of".data, "obsolete spelling of".data,
    "archaic form of".data, "female equivalent".data, "male equivalent".data,
    "voseo".data ]

/-- The `specific_form_patterns` regex table (lines 137–140). -/
def specific_form_patterns : List RE :=
  [ rseq [RE.bnd, raltOf ["superlative", "comparative", "diminutive", "augmentative"],
      rlit " form of", RE.bnd],
    rseq [RE.bnd, raltOf ["short", "long", "contracted", "elided"],
      rlit " form of", RE.bnd] ]

/-- The `inflection_patterns` table (lines 144–153); the plain-string entries
are literal patterns under `re.search`. -/
def inflection_patterns : List RE :=
  [ rseq [RE.bnd, RE.wordPlus, rlit "-person ", RE.anyPlus, rlit " ",
      raltOf ["singular", "plural"], rlit " ", RE.anyPlus, rlit " of ",
      RE.wordPlus, RE.eos],
    rseq [RE.bnd, RE.wordPlus, rlit "-person ", RE.anyPlus, rlit " of ",
      RE.wordPlus, RE.eos],
    rlit "subjunctive of", rlit "indicative of", rlit "conditional of",
    rlit "preterite of", rlit "imperfect of",
    rseq [rlit "future ", RE.anyPlus, rlit " of ", RE.wordPlus] ]

/-- `is_inflected_form_definition` (`build_translations.py` lines 101–171). -/
def is_inflected_form_definition (gloss : List Char) : Bool :=
  let gloss_lower := pyLower gloss
  if inflection_keywords.any (fun k => containsSub k gloss_lower) then true
  else if specific_form_patterns.any (fun p => reSearch p gloss_lower) then true
  else if inflection_patterns.any (fun p => reSearch p gloss_lower) then true
  else false

/-- The category-tag denylist of `is_technical_definition` (lines 190–198). -/
def bad_categories : List (List Char) :=
  [ "letter names".data, "psychoanalysis".data, "cities".data,
    "provinces".data, "countries".data, "place names".data, "toponyms".data ]

/-- The gloss-text pattern table of `is_technical_definition` (lines 207–251). -/
def technical_patterns : List (List Char) :=
  [ "letter of the".data, "name of the letter".data, "the name of the".data,
    "called ye".data, "called i griega".data, "called ef".data,
    "alphabet".data, "written in the latin script".data, "written in the".data,
    "freud".data, "jung".data, "psychoanalysis".data, "concept of the".data,
    "greek letter".data, "latin letter".data, "latin-script letter".data,
    "initialism".data, "abbreviation".data, "misspelling".data,
    "diminutive of".data, "augmentative of".data,
    "a city".data, "a suburb".data, "a town".data, "a village".data,
    "a census-designated place".data, "a comune".data, "a province".data,
    "capital of".data, "a state of".data, "a number of places".data,
    "county,".data, "a country".data, "a region".data ]

/-- `is_technical_definition` (`build_translations.py` lines 174–254); the
category list models `category_names` with `[]` for Python `None`. -/
def is_technical_definition (gloss : List Char) (category_names : List (List Char)) : Bool :=
  if category_names.any (fun cat =>
      bad_categories.any (fun bad => containsSub bad (pyLower cat))) then true
  else
    technical_patterns.any (fun p => containsSub p (pyLower gloss))

end BuildTranslations

/-! ### The Gloss Classifier of `build_translations_bidirectional.py` -/

namespace Bidirectional

/-- The keyword table of the bidirectional `is_inflected_form_definition`
(`build_translations_bidirectional.py` lines 132–155): the monodirectional
table plus the German case keywords. -/
def inflection_keywords : List (List Char) :=
  [ "inflection of".data, "plural of".data, "singular of".data,
    "masculine of".data, "feminine of".data, "neuter of".data,
    "genitive of".data, "dative of".data, "nominative of".data,
    "accusative of".data, "past participle of".data, "gerund of".data,
    "present participle of".data, "imperative of".data, "combined with".data,
    "alternative spelling of".data, "alternative form of".data,
    "obsolete spelling of".data, "archaic form of".data,
    "female equivalent".data, "male equivalent".data, "voseo".data ]

/-- The `german_inflection_patterns` regex table (lines 177–212). -/
def german_inflection_patterns : List RE :=
  [ rseq [RE.bos, raltOf ["weak", "strong", "mixed"], RE.slashWordStar, rlit " ",
      raltOf ["nominative", "genitive", "dative", "accusative"]],
    rseq [RE.bos, raltOf ["nominative", "genitive", "dative", "accusative"],
      rlit " ", raltOf ["singular", "plural"]],
    rseq [RE.bnd, raltOf ["singular", "plural"], rlit " ",
      raltOf ["nominative", "genitive", "dative", "accusative"], RE.bnd],
    rseq [raltOf ["nominative", "genitive", "dative", "accusative"], rlit "/",
      raltOf ["nominative", "genitive", "dative", "accusative"]],
    rseq [RE.bos, raltOf ["comparative", "superlative"], rlit " degree"],
    rseq [RE.bnd, raltOf ["comparative", "superlative"], rlit " degree of", RE.bnd],
    rseq [RE.bos, raltOf ["first", "second", "third"], rlit "-person ",
      raltOf ["singular", "plural"]],
    rseq [RE.bnd, raltOf ["first", "second", "third"], rlit "-person ", RE.anyPlus,
      rlit " ", raltOf ["present", "past", "future", "subjunctive", "imperative",
        "preterite"], RE.eos],
    rseq [raltOf ["first", "second", "third"], rlit "/",
      raltOf ["first", "second", "third"], rlit "-person"],
    rseq [RE.bnd, rlit "all-case ", raltOf ["singular", "plural"], RE.bnd],
    rseq [RE.bnd, rlit "all-gender ", raltOf ["singular", "plural"], RE.bnd],
    rseq [RE.bos, raltOf ["singular", "plural"], rlit " imperative", RE.eos],
    rseq [RE.bos, raltOf ["weak", "strong", "mixed"], rlit " ", RE.anyPlus, rlit " ",
      raltOf ["singular", "plural"], rlit " ", raltOf ["comparative", "superlative"]],
    rseq [RE.bnd, raltOf ["comparative", "superlative", "positive"],
      rlit " degree of ", RE.wordPlus, RE.eos],
    rseq [RE.bnd, rlit "dependent ",
      raltOf ["subjunctive", "preterite", "imperative"], RE.bnd] ]

/-- `is_inflected_form_definition`
(`build_translations_bidirectional.py` lines 118–231): the monodirectional
checks (its `specific_form_patterns` and `inflection_patterns` are identical
to those of `build_translations.py`) plus the German grammatical-form
patterns. -/
def is_inflected_form_definition (gloss : List Char) : Bool :=
  let gloss_lower := pyLower gloss
  if inflection_keywords.any (fun k => containsSub k gloss_lower) then true
  else if BuildTranslations.specific_form_patterns.any
      (fun p => reSearch p gloss_lower) then true
  else if BuildTranslations.inflection_patterns.any
      (fun p => reSearch p gloss_lower) then true
  else if german_inflection_patterns.any (fun p => reSearch p gloss_lower) then true
  else false

/-- `is_technical_definition`
(`build_translations_bidirectional.py` lines 234–293): its category denylist
and pattern table are textually identical to the monodirectional script's. -/
def is_technical_definition (gloss : List Char) (category_names : List (List Char)) : Bool :=
  if category_names.any (fun cat =>
      BuildTranslations.bad_categories.any (fun bad => containsSub bad (pyLower cat))) then
    true
  else
    BuildTranslations.technical_patterns.any (fun p => containsSub p (pyLower gloss))

end Bidirectional

/-! ### The Concept Clusterer (`build_concepts_db.py`, `ConceptDBBuilder`)

Python dictionaries are modelled as insertion-ordered association lists, so
iteration order in the embedding is exactly the source's iteration order.
A `(lang, lemma, pos)` key is a `SrcKey`; an `(english_lemma, pos)` concept
key is a `CKey`. -/

/-- A `(lang, lemma, pos)` lemma-identity key. -/
structure SrcKey where
  lang : String
  lemmaStr : String
  pos : String
deriving DecidableEq, Repr

/-- An `(english_lemma, pos)` concept key; `gloss` is the English lemma. -/
structure CKey where
  gloss : String
  pos : String
deriving DecidableEq, Repr

/-- A raw translation row `(lemma_from, lang_from, translation, lang_to)`. -/
structure TransRow where
  lemma_from : String
  lang_from : String
  translation : String
  lang_to : String
deriving DecidableEq, Repr

/-- A sense row `(lemma_id, concept_id, rank)`. -/
structure Sense where
  lemma_id : Nat
  concept_id : Nat
  rank : Nat
deriving DecidableEq, Repr

/-- The in-memory state of `ConceptDBBuilder`. -/
structure BState where
  forms : List (String × String × String × String)
  lemmas : List (SrcKey × Nat)
  next_lemma_id : Nat
  concepts : List (CKey × Nat)
  next_concept_id : Nat
  senses : List Sense
deriving Repr

/-- `ConceptDBBuilder.__init__`. -/
def initState : BState := ⟨[], [], 1, [], 1, []⟩

/-- First-match association lookup (Python `dict.get` / `in`). -/
def alookup {α β : Type} [DecidableEq α] (k : α) : List (α × β) → Option β
  | [] => none
  | p :: rest => if p.1 = k then some p.2 else alookup k rest

/-- Python dict assignment `d[k] = v`: overwrite in place, else append. -/
def dictInsert {α β : Type} [DecidableEq α] (l : List (α × β)) (k : α) (v : β) :
    List (α × β) :=
  match l with
  | [] => [(k, v)]
  | p :: rest => if p.1 = k then (k, v) :: rest else p :: dictInsert rest k v

/-- `if lemma_key not in self.lemmas: self.lemmas[lemma_key] = self.next_lemma_id`
followed by reading `self.lemmas[lemma_key]`; returns the updated state and
the key's lemma id. -/
def ensureLemma (st : BState) (k : SrcKey) : BState × Nat :=
  match alookup k st.lemmas with
  | some i => (st, i)
  | none =>
    ({ st with lemmas := st.lemmas ++ [(k, st.next_lemma_id)],
               next_lemma_id := st.next_lemma_id + 1 }, st.next_lemma_id)

/-- The language list of `build_concepts_db.py` line 27. -/
def LANGUAGES : List String := ["en", "es", "fr", "de", "it"]

/-- One row of `extract_forms_and_lemmas`: append the form, register the
lemma key if unseen (lines 67–79; `pos or 'UNKNOWN'` handles a NULL POS). -/
def extractRow (lang : String) (st : BState)
    (r : String × String × Option String) : BState :=
  let pos := r.2.2.getD "UNKNOWN"
  let st := { st with forms := st.forms ++ [(lang, r.1, r.2.1, pos)] }
  (ensureLemma st ⟨lang, r.2.1, pos⟩).1

/-- `ConceptDBBuilder.extract_forms_and_lemmas` (lines 45–84): iterate the
supported languages, skipping absent ones; `inp` maps a language to its
`(word, lemma, pos)` rows. -/
def extract_forms_and_lemmas
    (inp : List (String × List (String × String × Option String))) : BState :=
  LANGUAGES.foldl
    (fun st lang =>
      match alookup lang inp with
      | none => st
      | some rows => rows.foldl (extractRow lang) st)
    initState

/-- The `(lang, lemma) → pos` cache of lines 92–97 (first-seen POS wins). -/
def buildPosCache (ls : List (SrcKey × Nat)) : List ((String × String) × String) :=
  ls.foldl
    (fun c p =>
      if (alookup (p.1.lang, p.1.lemmaStr) c).isSome then c
      else c ++ [((p.1.lang, p.1.lemmaStr), p.1.pos)])
    []

/-- A hub bucket: distinct source keys with their recorded lemma length. -/
abbrev Bucket := List (SrcKey × Nat)

/-- The English hub: `(english_lemma, pos) → bucket` in insertion order. -/
abbrev Hub := List (CKey × Bucket)

/-- `if source_key not in english_hub[hub_key]: ... = len(lemma_from)`
(first-seen length wins). -/
def bucketInsert (b : Bucket) (k : SrcKey) (n : Nat) : Bucket :=
  if (alookup k b).isSome then b else b ++ [(k, n)]

/-- Insert into the `defaultdict(dict)` hub, creating the bucket on first
access. -/
def hubInsert (h : Hub) (hk : CKey) (k : SrcKey) (n : Nat) : Hub :=
  match h with
  | [] => [(hk, [(k, n)])]
  | e :: rest =>
    if e.1 = hk then (e.1, bucketInsert e.2 k n) :: rest
    else e :: hubInsert rest hk k n

/-- One translation row of the hub-accumulation loop (lines 143–183): only
rows toward English from a non-English source participate; the POS comes
from the cache with default `"UNKNOWN"`, the ranking length is
`len(lemma_from)`. -/
def hubStep (pc : List ((String × String) × String)) (h : Hub) (r : TransRow) : Hub :=
  if r.lang_to = "en" ∧ r.lang_from ≠ "en" then
    let english_lemma := _extract_english_lemma r.translation
    let source_pos := (alookup (r.lang_from, r.lemma_from) pc).getD "UNKNOWN"
    hubInsert h ⟨english_lemma, source_pos⟩
      ⟨r.lang_from, r.lemma_from, source_pos⟩ r.lemma_from.length
  else h

/-- Build the English hub from all translation rows (the per-database and
per-batch splits of the source only affect progress reporting, not the
accumulated hub). -/
def buildHub (pc : List ((String × String) × String)) (rows : List TransRow) : Hub :=
  rows.foldl (hubStep pc) []

/-- Strict code-point lexicographic order on character lists — Python's
string `<`. -/
def lexLt : List Char → List Char → Bool
  | [], [] => false
  | [], _ :: _ => true
  | _ :: _, [] => false
  | a :: as, b :: bs =>
    if a.toNat < b.toNat then true
    else if b.toNat < a.toNat then false
    else lexLt as bs

/-- Python's tuple order on the sort key `(length, lemma)` of line 203. -/
def keyLt (a b : SrcKey × Nat) : Bool :=
  if a.2 < b.2 then true
  else if b.2 < a.2 then false
  else lexLt a.1.lemmaStr.data b.1.lemmaStr.data

/-- The (non-strict, total) sort relation: `a` may precede `b`. -/
def keyLe (a b : SrcKey × Nat) : Prop := keyLt b a = false

instance : DecidableRel keyLe := fun a b => instDecidableEqBool (keyLt b a) false

/-- `sorted(translations.items(), key=lambda x: (x[1], x[0][1]))`.  Python's
sort is stable; a stable sort by a total preorder has a unique result, so
the structurally recursive `List.insertionSort` (which is stable) computes
exactly it. -/
def sortBucket (b : Bucket) : Bucket := List.insertionSort keyLe b

/-- The `translations_by_lang` grouping of lines 206–208: a
`defaultdict(list)` keyed by language, appending in sorted order. -/
def byLangInsert (g : List (String × Bucket)) (it : SrcKey × Nat) :
    List (String × Bucket) :=
  match g with
  | [] => [(it.1.lang, [it])]
  | e :: rest =>
    if e.1 = it.1.lang then (e.1, e.2 ++ [it]) :: rest
    else e :: byLangInsert rest it

/-- Group a sorted bucket by source language, in insertion order. -/
def groupByLang (b : Bucket) : List (String × Bucket) := b.foldl byLangInsert []

/-- The ranked-sense loop of lines 211–222: take the items in order, rank
them `r, r+1, …`, materializing missing lemmas and appending senses. -/
def addRanked (cid : Nat) : BState → Nat → Bucket → BState
  | st, _, [] => st
  | st, r, it :: rest =>
    let q := ensureLemma st it.1
    addRanked cid { q.1 with senses := q.1.senses ++ [⟨q.2, cid, r⟩] } (r + 1) rest

/-- `for rank_idx, ... in enumerate(lang_translations[:3], 1)`. -/
def addLangSenses (cid : Nat) (st : BState) (grp : Bucket) : BState :=
  addRanked cid st 1 (grp.take 3)

/-- Process one hub bucket (lines 193–231): allocate a concept id, record
the concept, rank the sorted per-language groups, then add the English
lemma itself as a rank-1 sense. -/
def processBucket (st : BState) (e : CKey × Bucket) : BState :=
  let cid := st.next_concept_id
  let st1 := { st with next_concept_id := st.next_concept_id + 1,
                       concepts := dictInsert st.concepts e.1 cid }
  let groups := groupByLang (sortBucket e.2)
  let st2 := groups.foldl (fun s g => addLangSenses cid s g.2) st1
  let q := ensureLemma st2 ⟨"en", e.1.gloss, e.1.pos⟩
  { q.1 with senses := q.1.senses ++ [⟨q.2, cid, 1⟩] }

/-- `ConceptDBBuilder.build_concepts_from_translations` (lines 86–235),
taking the concatenated rows of all translation databases. -/
def build_concepts_from_translations (st : BState) (rows : List TransRow) : BState :=
  let pc := buildPosCache st.lemmas
  let hub := buildHub pc rows
  hub.foldl processBucket st

/-- The full in-memory build: lexicon extraction, then concept clustering. -/
def buildPipeline
    (inp : List (String × List (String × String × Option String)))
    (rows : List TransRow) : BState :=
  build_concepts_from_translations (extract_forms_and_lemmas inp) rows

/-- Does sense `s` link its concept to a lemma of language `l`?  (Bool form
of "some registry entry carries `s.lemma_id` with language `l`"; lemma ids
are assigned injectively, see `StInv`.) -/
def senseLangB (st : BState) (s : Sense) (l : String) : Bool :=
  st.lemmas.any (fun p => p.2 == s.lemma_id && p.1.lang == l)

/-- The senses of one concept, in creation order. -/
def conceptSenses (st : BState) (cid : Nat) : List Sense :=
  st.senses.filter (fun s => s.concept_id == cid)

/-! ### The Direction Augmenter (`build_translations_bidirectional.py`) -/

/-- `reverse_translations` (lines 405–424): mirror every record
`(lemma_from, lang_from, translation, lang_to)` to
`(translation, lang_to, lemma_from, lang_from)`. -/
def reverse_translations (translations : List TransRow) : List TransRow :=
  translations.map (fun r => ⟨r.translation, r.lang_to, r.lemma_from, r.lang_from⟩)

/-- `SPARSE_THRESHOLD` (line 523). -/
def SPARSE_THRESHOLD : Nat := 10000

/-- `RICH_THRESHOLD` (line 524). -/
def RICH_THRESHOLD : Nat := 100000

/-- The augmentation branch of `main` (lines 522–549): extend a sparse
direction with the mirror of a rich reverse direction; the `elif` makes the
two augmentations mutually exclusive. -/
def augmentDirections (t1 t2 : List TransRow) : List TransRow × List TransRow :=
  if t1.length < SPARSE_THRESHOLD ∧ RICH_THRESHOLD < t2.length then
    (t1 ++ reverse_translations t2, t2)
  else if t2.length < SPARSE_THRESHOLD ∧ RICH_THRESHOLD < t1.length then
    (t1, t2 ++ reverse_translations t1)
  else (t1, t2)

/-! ### The Graph Assembler/Persister (`build_concepts_db.py`,
`create_concepts_db`, lines 291–428)

Two aspects are modelled.  First, the effect of the build on the output
location, as the ordered step trace the function performs: the pre-existing
store is unlinked (lines 296–298) *before* the schema is created and the
insert transaction runs (lines 300–427), and only the final `COMMIT`
completes the store.  Second, the per-table insert statements and their
duplicate-key behaviour (`INSERT` versus `INSERT OR IGNORE`). -/

/-- The externally visible actions of `create_concepts_db`, in program
order. -/
inductive BuildStep where
  | removeExisting : BuildStep
  | createSchema : BuildStep
  | insertLemmas : BuildStep
  | insertForms : BuildStep
  | insertConcepts : BuildStep
  | insertSenses : BuildStep
  | commitTxn : BuildStep
deriving DecidableEq, Repr

/-- The step trace of `create_concepts_db`. -/
def create_concepts_db_steps : List BuildStep :=
  [BuildStep.removeExisting, BuildStep.createSchema, BuildStep.insertLemmas,
   BuildStep.insertForms, BuildStep.insertConcepts, BuildStep.insertSenses,
   BuildStep.commitTxn]

/-- What occupies the output location. -/
inductive OutputState where
  | oldStore : OutputState
  | absent : OutputState
  | partialStore : OutputState
  | finalStore : OutputState
deriving DecidableEq, Repr

/-- Effect of one step on the output location: `unlink` removes whatever is
there; creating the schema starts a new, incomplete store; inserts keep it
incomplete; the commit completes it. -/
def applyStep (o : OutputState) (s : BuildStep) : OutputState :=
  match s with
  | BuildStep.removeExisting => OutputState.absent
  | BuildStep.createSchema => OutputState.partialStore
  | BuildStep.insertLemmas => o
  | BuildStep.insertForms => o
  | BuildStep.insertConcepts => o
  | BuildStep.insertSenses => o
  | BuildStep.commitTxn =>
    match o with
    | OutputState.partialStore => OutputState.finalStore
    | o => o

/-- The output location after the first `k` steps of a run that started with
a pre-existing store (a failure after `k` steps leaves exactly this). -/
def outputAfter (k : Nat) : OutputState :=
  (create_concepts_db_steps.take k).foldl applyStep OutputState.oldStore

/-- Rows of the `forms` table; key `(lang, form, lemma_id)`. -/
structure FormRow where
  lang : String
  form : String
  lemma_id : Nat
  feats_json : Option String
deriving DecidableEq, Repr

/-- Rows of the `lemmas` table; primary key `id`, unique `(lang, lemma, pos)`. -/
structure LemmaRow where
  id : Nat
  lang : String
  lemmaStr : String
  pos : String
  freq_rank : Option Nat
deriving DecidableEq, Repr

/-- Rows of the `concepts` table; primary key `id`. -/
structure ConceptRow where
  id : Nat
  pos : String
  gloss : String
deriving DecidableEq, Repr

/-- Does inserting `r` into `forms` violate its key? -/
def formDup (tbl : List FormRow) (r : FormRow) : Bool :=
  tbl.any (fun x => x.lang == r.lang && x.form == r.form && x.lemma_id == r.lemma_id)

/-- Does inserting `r` into `senses` violate its key `(lemma_id, concept_id)`? -/
def senseDup (tbl : List Sense) (r : Sense) : Bool :=
  tbl.any (fun x => x.lemma_id == r.lemma_id && x.concept_id == r.concept_id)

/-- Does inserting `r` into `lemmas` violate the primary key or the unique
constraint? -/
def lemmaDup (tbl : List LemmaRow) (r : LemmaRow) : Bool :=
  tbl.any (fun x => x.id == r.id ||
    (x.lang == r.lang && x.lemmaStr == r.lemmaStr && x.pos == r.pos))

/-- Does inserting `r` into `concepts` violate its primary key? -/
def conceptDup (tbl : List ConceptRow) (r : ConceptRow) : Bool :=
  tbl.any (fun x => x.id == r.id)

/-- `INSERT OR IGNORE INTO forms ...` (line 400). -/
def insertFormRow (tbl : List FormRow) (r : FormRow) : List FormRow :=
  if formDup tbl r then tbl else tbl ++ [r]

/-- `INSERT OR IGNORE INTO senses ...` (line 420). -/
def insertSenseRow (tbl : List Sense) (r : Sense) : List Sense :=
  if senseDup tbl r then tbl else tbl ++ [r]

/-- `INSERT INTO lemmas ...` (line 382): a duplicate key raises
`sqlite3.IntegrityError`, modelled as `Except.error`. -/
def insertLemmaRow (tbl : List LemmaRow) (r : LemmaRow) :
    Except String (List LemmaRow) :=
  if lemmaDup tbl r then Except.error "UNIQUE constraint failed"
  else Except.ok (tbl ++ [r])

/-- `INSERT INTO concepts ...` (line 411): a duplicate key raises
`sqlite3.IntegrityError`, modelled as `Except.error`. -/
def insertConceptRow (tbl : List ConceptRow) (r : ConceptRow) :
    Except String (List ConceptRow) :=
  if conceptDup tbl r then Except.error "UNIQUE constraint failed"
  else Except.ok (tbl ++ [r])

/-- The bulk load of the `forms` table (`executemany` over all rows). -/
def insertFormsAll (tbl : List FormRow) (rows : List FormRow) : List FormRow :=
  rows.foldl insertFormRow tbl

/-- The bulk load of the `senses` table. -/
def insertSensesAll (tbl : List Sense) (rows : List Sense) : List Sense :=
  rows.foldl insertSenseRow tbl

/-! ### Invariants and specification predicates for the Concept Clusterer -/

/-- Lemma identifiers are assigned injectively: two registry entries with the
same id are the same entry. -/
def idsInj (L : List (SrcKey × Nat)) : Prop :=
  ∀ p ∈ L, ∀ q ∈ L, p.2 = q.2 → p = q

/-- The running invariant of `ConceptDBBuilder`'s in-memory state. -/
structure StInv (st : BState) : Prop where
  inj : idsInj st.lemmas
  bound : ∀ p ∈ st.lemmas, p.2 < st.next_lemma_id
  closed : ∀ s ∈ st.senses, ∃ p ∈ st.lemmas, p.2 = s.lemma_id
  cidBound : ∀ s ∈ st.senses, s.concept_id < st.next_concept_id
  cBound : ∀ c ∈ st.concepts, c.2 < st.next_concept_id

/-- The verified shape of one concept's sense list: exactly one English sense,
at rank 1; at most three senses per other language; and per-language rank
order sorted by `(surface length, code-point lexicographic)`. -/
structure ConceptProps (st : BState) (cid : Nat) : Prop where
  enOne : ((conceptSenses st cid).filter (fun s => senseLangB st s "en")).length = 1
  enRank : ∀ s ∈ conceptSenses st cid, senseLangB st s "en" = true → s.rank = 1
  langLe3 : ∀ l : String, l ≠ "en" →
    ((conceptSenses st cid).filter (fun s => senseLangB st s l)).length ≤ 3
  ordered : ∀ s1 ∈ conceptSenses st cid, ∀ s2 ∈ conceptSenses st cid,
    ∀ l : String, ∀ k1 k2 : SrcKey,
    senseLangB st s1 l = true → senseLangB st s2 l = true →
    (k1, s1.lemma_id) ∈ st.lemmas → (k2, s2.lemma_id) ∈ st.lemmas →
    s1.rank < s2.rank →
    k1.lemmaStr.length ≤ k2.lemmaStr.length ∧
      (k1.lemmaStr.length = k2.lemmaStr.length →
        lexLt k1.lemmaStr.data k2.lemmaStr.data = true)

/-- Well-formedness of the accumulated English hub: bucket keys are distinct;
every bucket item records a non-English source key, its actual lemma length,
and the cache-determined POS; item keys inside a bucket are distinct. -/
structure HubWF (pc : List ((String × String) × String)) (h : Hub) : Prop where
  keysNodup : (h.map Prod.fst).Nodup
  itemsWF : ∀ e ∈ h, ∀ it ∈ e.2, it.1.lang ≠ "en" ∧
    it.2 = it.1.lemmaStr.length ∧
    it.1.pos = (alookup (it.1.lang, it.1.lemmaStr) pc).getD "UNKNOWN"
  itemKeysNodup : ∀ e ∈ h, (e.2.map Prod.fst).Nodup

/-- Attach ranks `r, r+1, …` to a group's items (specification mirror of
`enumerate(lang_translations[:3], 1)`): the result pairs each source key with
its rank. -/
def rankFrom (r : Nat) : Bucket → List (SrcKey × Nat)
  | [] => []
  | it :: rest => (it.1, r) :: rankFrom (r + 1) rest

/-- The `(source key, rank)` description of the senses one hub bucket
contributes to its concept: the top-3 of each language group in sorted
order, then the English lemma at rank 1. -/
def bucketSpec (ck : CKey) (b : Bucket) : List (SrcKey × Nat) :=
  ((groupByLang (sortBucket b)).map (fun g => rankFrom 1 (g.2.take 3))).flatten
    ++ [(⟨"en", ck.gloss, ck.pos⟩, 1)]

/-- The per-language rank-order property of the sorted buckets: strictly
shorter first, code-point lexicographic on equal lengths. -/
def OrdKey (k1 k2 : SrcKey) : Prop :=
  k1.lemmaStr.length ≤ k2.lemmaStr.length ∧
    (k1.lemmaStr.length = k2.lemmaStr.length →
      lexLt k1.lemmaStr.data k2.lemmaStr.data = true)

/-- Symmetric pairwise form of the rank-order property on `(key, rank)`
spec entries of one bucket. -/
def specSym (x y : SrcKey × Nat) : Prop :=
  x.1.lang = y.1.lang →
    ((x.2 < y.2 → OrdKey x.1 y.1) ∧ (y.2 < x.2 → OrdKey y.1 x.1))

/-- Well-formedness of one hub bucket (a consequence of `HubWF` for each
bucket): non-English items carrying their true lengths and cache-determined
POS tags, with distinct keys. -/
def BucketWF (pc : List ((String × String) × String)) (b : Bucket) : Prop :=
  (∀ it ∈ b, it.1.lang ≠ "en" ∧ it.2 = it.1.lemmaStr.length ∧
    it.1.pos = (alookup (it.1.lang, it.1.lemmaStr) pc).getD "UNKNOWN") ∧
  (b.map Prod.fst).Nodup

/-- The correspondence between an appended sense and its `(key, rank)` spec
entry, relative to the lemma registry of a (final) state. -/
def senseMatches (fin : BState) (cid : Nat) (s : Sense) (kr : SrcKey × Nat) : Prop :=
  s.concept_id = cid ∧ s.rank = kr.2 ∧ (kr.1, s.lemma_id) ∈ fin.lemmas

/-- Invariant of the `translations_by_lang` grouping fold: distinct group
keys, each group holding exactly the processed items of its language, every
processed item covered. -/
def GroupsWF (xs : Bucket) (acc : List (String × Bucket)) : Prop :=
  (acc.map Prod.fst).Nodup ∧
  (∀ e ∈ acc, e.2 = xs.filter (fun it => it.1.lang == e.1)) ∧
  (∀ it ∈ xs, it.1.lang ∈ acc.map Prod.fst)

/-- A fixed sample row used by concrete witnesses. -/
def sampleRow : TransRow := ⟨"perro", "es", "dog", "en"⟩

/-! ## Supporting lemmas: the string layer -/

theorem clookup_mem {k v : Char} : ∀ {l : List (Char × Char)},
    clookup k l = some v → (k, v) ∈ l := by
  intro l
  induction l with
  | nil => intro h; cases h
  | cons p rest ih =>
    intro h
    unfold clookup at h
    by_cases hp : p.1 = k
    · rw [if_pos hp] at h
      cases h
      have hkp : (k, p.2) = p := by rw [← hp]
      rw [hkp]
      exact List.mem_cons_self p rest
    · rw [if_neg hp] at h
      exact List.mem_cons_of_mem _ (ih h)

theorem pyLowerChar_idem (c : Char) : pyLowerChar (pyLowerChar c) = pyLowerChar c := by
  unfold pyLowerChar
  cases h : clookup c upperLowerTable with
  | none => simp [h]
  | some d =>
    have hnone : ∀ p ∈ upperLowerTable, clookup p.2 upperLowerTable = none := by decide
    have := hnone _ (clookup_mem h)
    simp only [h, Option.getD_some]
    simp [this]

theorem pyLowerChar_sep {c d : Char} (hd : d ∈ ([',', ';', '/', '('] : List Char))
    (h : pyLowerChar c = d) : c = d := by
  unfold pyLowerChar at h
  cases hc : clookup c upperLowerTable with
  | none => rw [hc] at h; exact h
  | some e =>
    rw [hc] at h
    simp only [Option.getD_some] at h
    have hval : ∀ p ∈ upperLowerTable, p.2 ∉ ([',', ';', '/', '('] : List Char) := by
      decide
    exact absurd hd (h ▸ hval _ (clookup_mem hc))

theorem containsChar_iff {c : Char} {l : List Char} :
    containsChar c l = true ↔ c ∈ l := by
  simp [containsChar, List.any_eq_true]

theorem mem_of_mem_pyStrip {c : Char} {l : List Char} (h : c ∈ pyStrip l) : c ∈ l := by
  unfold pyStrip at h
  rw [List.mem_reverse] at h
  have h2 := List.Sublist.mem h (List.dropWhile_sublist _)
  rw [List.mem_reverse] at h2
  exact List.Sublist.mem h2 (List.dropWhile_sublist _)

theorem mem_of_mem_afterLastComma {c : Char} {l : List Char}
    (h : c ∈ afterLastComma l) : c ∈ l := by
  unfold afterLastComma at h
  rw [List.mem_reverse] at h
  have h2 := List.Sublist.mem h (List.takeWhile_sublist _)
  rwa [List.mem_reverse] at h2

theorem mem_of_mem_jargonStep {c : Char} {v : List Char}
    (h : c ∈ jargonStep v) : c ∈ v := by
  unfold jargonStep at h
  split at h
  · exact mem_of_mem_afterLastComma (mem_of_mem_pyStrip h)
  · exact h

theorem mem_of_mem_sepStep {c : Char} {v : List Char}
    (h : c ∈ sepStep v) : c ∈ v := by
  unfold sepStep at h
  split at h
  · exact List.Sublist.mem (mem_of_mem_pyStrip h) (List.takeWhile_sublist _)
  · split at h
    · exact List.Sublist.mem (mem_of_mem_pyStrip h) (List.takeWhile_sublist _)
    · split at h
      · exact List.Sublist.mem (mem_of_mem_pyStrip h) (List.takeWhile_sublist _)
      · exact h

theorem comma_not_mem_sepStep (v : List Char) : ',' ∉ sepStep v := by
  intro h
  unfold sepStep at h
  split at h
  · exact absurd (List.mem_takeWhile_imp (mem_of_mem_pyStrip h)) (by decide)
  · next hcond =>
    exact hcond (containsChar_iff.mpr (mem_of_mem_sepStep (by
      unfold sepStep
      rw [if_neg hcond]
      exact h)))

theorem paren_not_mem_parenStep (v : List Char) : '(' ∉ parenStep v := by
  intro h
  unfold parenStep at h
  split at h
  · exact absurd (List.mem_takeWhile_imp (mem_of_mem_pyStrip h)) (by decide)
  · next hcond => exact hcond (containsChar_iff.mpr h)

theorem mem_pyLower {c : Char} {l : List Char} (h : c ∈ pyLower l) :
    ∃ d ∈ l, pyLowerChar d = c :=
  List.mem_map.mp h

theorem map_id_of_mem {α : Type} {f : α → α} : ∀ {l : List α},
    (∀ a ∈ l, f a = a) → l.map f = l := by
  intro l
  induction l with
  | nil => intro _; rfl
  | cons a t ih =>
    intro h
    simp only [List.map_cons, h a (List.mem_cons_self a t),
      ih (fun b hb => h b (List.mem_cons_of_mem a hb))]

theorem extract_no_comma (t : List Char) : ',' ∉ extractLemmaChars t := by
  intro h
  unfold extractLemmaChars at h
  obtain ⟨d, hd, hld⟩ := mem_pyLower (mem_of_mem_pyStrip h)
  rw [pyLowerChar_sep (by decide) hld] at hd
  exact comma_not_mem_sepStep _ hd

theorem extract_no_paren (t : List Char) : '(' ∉ extractLemmaChars t := by
  intro h
  unfold extractLemmaChars at h
  obtain ⟨d, hd, hld⟩ := mem_pyLower (mem_of_mem_pyStrip h)
  rw [pyLowerChar_sep (by decide) hld] at hd
  exact paren_not_mem_parenStep _ (mem_of_mem_jargonStep (mem_of_mem_sepStep hd))

theorem extract_lower_fixed (t : List Char) :
    pyLower (extractLemmaChars t) = extractLemmaChars t := by
  apply map_id_of_mem
  intro c hc
  unfold extractLemmaChars at hc
  obtain ⟨d, _, hld⟩ := mem_pyLower (mem_of_mem_pyStrip hc)
  rw [← hld]
  exact pyLowerChar_idem d

theorem dropWhile_head_not {p : Char → Bool} : ∀ (l : List Char),
    l.dropWhile p = [] ∨
      ∃ c t, l.dropWhile p = c :: t ∧ p c = false := by
  intro l
  induction l with
  | nil => left; rfl
  | cons a t ih =>
    rw [List.dropWhile_cons]
    by_cases h : p a = true
    · rw [if_pos h]; exact ih
    · rw [if_neg h]
      right
      exact ⟨a, t, rfl, Bool.eq_false_iff.mpr h⟩

theorem dropWhile_getLast? {p : Char → Bool} {c : Char} : ∀ {l : List Char},
    l.getLast? = some c → p c = false →
    (l.dropWhile p).getLast? = some c := by
  intro l
  induction l with
  | nil => intro h; cases h
  | cons a t ih =>
    intro hl hc
    rw [List.dropWhile_cons]
    cases t with
    | nil =>
      simp only [List.getLast?_singleton, Option.some.injEq] at hl
      subst hl
      rw [if_neg (by simp [hc])]
      rfl
    | cons b u =>
      rw [List.getLast?_cons_cons] at hl
      by_cases h : p a = true
      · rw [if_pos h]
        exact ih hl hc
      · rw [if_neg h]
        rw [List.getLast?_cons_cons]
        exact hl

theorem dropWhile_of_head {p : Char → Bool} {c : Char} {l : List Char}
    (hh : l.head? = some c) (hc : p c = false) : l.dropWhile p = l := by
  cases l with
  | nil => cases hh
  | cons a t =>
    simp only [List.head?_cons, Option.some.injEq] at hh
    subst hh
    rw [List.dropWhile_cons, if_neg (by simp [hc])]

theorem pyStrip_ends (l : List Char) :
    pyStrip l = [] ∨
      (∃ c, (pyStrip l).head? = some c ∧ c.isWhitespace = false) ∧
      (∃ c, (pyStrip l).getLast? = some c ∧ c.isWhitespace = false) := by
  unfold pyStrip
  rcases dropWhile_head_not (p := Char.isWhitespace) l with h | ⟨c, t, h, hc⟩
  · left; rw [h]; rfl
  · rcases dropWhile_head_not (p := Char.isWhitespace)
      (l.dropWhile Char.isWhitespace).reverse with h2 | ⟨d, u, h2, hd⟩
    · left; rw [h2]; rfl
    · right
      constructor
      · refine ⟨c, ?_, hc⟩
        rw [List.head?_reverse]
        have : (l.dropWhile Char.isWhitespace).reverse.getLast? = some c := by
          rw [List.getLast?_reverse, h, List.head?_cons]
        rw [dropWhile_getLast? this hc]
      · refine ⟨d, ?_, hd⟩
        rw [List.getLast?_reverse, h2, List.head?_cons]

theorem pyStrip_of_ends {l : List Char}
    (hh : ∀ c, l.head? = some c → c.isWhitespace = false)
    (hl : ∀ c, l.getLast? = some c → c.isWhitespace = false) :
    pyStrip l = l := by
  cases l with
  | nil => rfl
  | cons a t =>
    unfold pyStrip
    rw [dropWhile_of_head (List.head?_cons) (hh a List.head?_cons)]
    rcases hlast : (a :: t).getLast? with _ | c
    · simp at hlast
    · rw [dropWhile_of_head (by rw [List.head?_reverse]; exact hlast) (hl c hlast)]
      exact List.reverse_reverse _

theorem pyStrip_idem (l : List Char) : pyStrip (pyStrip l) = pyStrip l := by
  rcases pyStrip_ends l with h | ⟨⟨c, hc, hcw⟩, ⟨d, hd, hdw⟩⟩
  · rw [h]; rfl
  · apply pyStrip_of_ends
    · intro e he
      rw [hc] at he
      cases he
      exact hcw
    · intro e he
      rw [hd] at he
      cases he
      exact hdw

theorem extract_strip_fixed (t : List Char) :
    pyStrip (extractLemmaChars t) = extractLemmaChars t := by
  unfold extractLemmaChars
  exact pyStrip_idem _

/-! ## Claim C4: canonicalizer idempotence -/

/-- Claim C4, counterexample: the canonicalizer is *not* idempotent.  On
`"x;y,z"` the comma wins the separator scan and yields `"x;y"`, which a
second application truncates at the semicolon to `"x"`. -/
theorem C4_counterexample :
    _extract_english_lemma (_extract_english_lemma ("x;y,z")) ≠
      _extract_english_lemma ("x;y,z") := by decide

/-- Claim C4, amended: the canonicalizer is idempotent on every gloss whose
canonical form does not itself start with `"to "` and contains neither a
semicolon nor a slash (a canonical form never contains a comma or an opening
parenthesis, so those separators cannot re-fire; the counterexample
`"x;y,z"` shows the semicolon restriction is necessary, and `"to to x"`
style inputs show the prefix restriction is necessary). -/
theorem C4_canonicalizer_idempotent_amended (s : String)
    (h1 : ("to ".data).isPrefixOf (_extract_english_lemma s).data = false)
    (h2 : containsChar ';' (_extract_english_lemma s).data = false)
    (h3 : containsChar '/' (_extract_english_lemma s).data = false) :
    _extract_english_lemma (_extract_english_lemma s) = _extract_english_lemma s := by
  have h1' : ("to ".data).isPrefixOf (extractLemmaChars s.data) = false := h1
  have h2' : containsChar ';' (extractLemmaChars s.data) = false := h2
  have h3' : containsChar '/' (extractLemmaChars s.data) = false := h3
  have hcomma : containsChar ',' (extractLemmaChars s.data) = false :=
    Bool.eq_false_iff.mpr (fun hc => extract_no_comma _ (containsChar_iff.mp hc))
  have hparen : containsChar '(' (extractLemmaChars s.data) = false :=
    Bool.eq_false_iff.mpr (fun hc => extract_no_paren _ (containsChar_iff.mp hc))
  have hlow : pyLower (extractLemmaChars s.data) = extractLemmaChars s.data :=
    extract_lower_fixed _
  have hstrip : pyStrip (extractLemmaChars s.data) = extractLemmaChars s.data :=
    extract_strip_fixed _
  have main : extractLemmaChars (extractLemmaChars s.data) = extractLemmaChars s.data := by
    generalize extractLemmaChars s.data = t at h1' h2' h3' hcomma hparen hlow hstrip
    unfold extractLemmaChars
    rw [show toStep t = t by unfold toStep; simp [h1']]
    rw [show parenStep t = t by unfold parenStep; simp [hparen]]
    rw [show jargonStep t = t by unfold jargonStep; simp [hcomma]]
    rw [show sepStep t = t by unfold sepStep; simp [hcomma, h2', h3']]
    rw [hlow, hstrip]
  exact congrArg String.mk main

/-- Witness for C4's amended theorem at the gloss `"to be (copula)"`. -/
theorem C4_amended_witness :
    ("to ".data).isPrefixOf (_extract_english_lemma ("to be (copula)")).data = false ∧
    containsChar ';' (_extract_english_lemma ("to be (copula)")).data = false ∧
    containsChar '/' (_extract_english_lemma ("to be (copula)")).data = false ∧
    _extract_english_lemma (_extract_english_lemma ("to be (copula)")) =
      _extract_english_lemma ("to be (copula)") :=
  ⟨by decide, by decide, by decide,
    C4_canonicalizer_idempotent_amended "to be (copula)" (by decide) (by decide)
      (by decide)⟩

/-! ## Claim C5: canonicalizer examples -/

/-- Claim C5: the Lemma Canonicalizer maps `"to be (copula)"` to `"be"`,
`"hello, hi, hey"` to `"hello"`, `"apocopic form of mío, my"` to `"my"`, and
`"greetings; hello (general salutation)"` to `"greetings"`. -/
theorem C5_canonicalizer_examples :
    _extract_english_lemma ("to be (copula)") = "be" ∧
    _extract_english_lemma ("hello, hi, hey") = "hello" ∧
    _extract_english_lemma ("apocopic form of mío, my") = "my" ∧
    _extract_english_lemma ("greetings; hello (general salutation)") = "greetings" :=
  ⟨by decide, by decide, by decide, by decide⟩

/-! ## Claim C6: classifier examples -/

/-- Claim C6, evaluation at the three spec examples.  The first two behave as
the spec says in both scripts; however the bidirectional classifier flags
`"first-person singular pronoun; I"` as an inflection reference (its
`german_inflection_patterns` entry `^(first|second|third)-person
(singular|plural)` matches at the start of the gloss), although its own
docstring lists that very gloss under "Examples to KEEP". -/
theorem C6_classifier_examples :
    BuildTranslations.is_inflected_form_definition
      ("third-person plural future indicative of muñir").data = true ∧
    Bidirectional.is_inflected_form_definition
      ("third-person plural future indicative of muñir").data = true ∧
    BuildTranslations.is_technical_definition ("a city in Lombardy").data [] = true ∧
    Bidirectional.is_technical_definition ("a city in Lombardy").data [] = true ∧
    BuildTranslations.is_inflected_form_definition
      ("first-person singular pronoun; I").data = false ∧
    BuildTranslations.is_technical_definition
      ("first-person singular pronoun; I").data [] = false ∧
    Bidirectional.is_technical_definition
      ("first-person singular pronoun; I").data [] = false ∧
    Bidirectional.is_inflected_form_definition
      ("first-person singular pronoun; I").data = true :=
  ⟨by decide, by decide, by decide, by decide, by decide, by decide, by decide,
    by decide⟩

/-! ## Claim C7: direction augmentation -/

/-- Claim C7: a sparse direction facing a rich reverse ends with exactly its
original records plus one mirrored record per rich record (500 and 150 000
yield exactly 150 500); two 50 000-record directions are left untouched; and
at most one direction is ever augmented. -/
theorem C7_direction_augmentation (t1 t2 : List TransRow) :
    (t1.length < SPARSE_THRESHOLD → RICH_THRESHOLD < t2.length →
      augmentDirections t1 t2 = (t1 ++ reverse_translations t2, t2) ∧
      (augmentDirections t1 t2).1.length = t1.length + t2.length) ∧
    (t1.length = 50000 → t2.length = 50000 →
      augmentDirections t1 t2 = (t1, t2)) ∧
    (t1.length = 500 → t2.length = 150000 →
      (augmentDirections t1 t2).1.length = 150500 ∧
      (augmentDirections t1 t2).2 = t2) ∧
    ((augmentDirections t1 t2).1 = t1 ∨ (augmentDirections t1 t2).2 = t2) := by
  refine ⟨?_, ?_, ?_, ?_⟩
  · intro h1 h2
    unfold augmentDirections
    rw [if_pos ⟨h1, h2⟩]
    refine ⟨rfl, ?_⟩
    simp [reverse_translations]
  · intro h1 h2
    unfold augmentDirections
    rw [if_neg (by rw [h1, h2]; unfold SPARSE_THRESHOLD RICH_THRESHOLD; omega),
        if_neg (by rw [h1, h2]; unfold SPARSE_THRESHOLD RICH_THRESHOLD; omega)]
  · intro h1 h2
    unfold augmentDirections
    rw [if_pos (by rw [h1, h2]; unfold SPARSE_THRESHOLD RICH_THRESHOLD; omega)]
    refine ⟨?_, rfl⟩
    simp [reverse_translations, h1, h2]
  · unfold augmentDirections
    split
    · right; rfl
    · split
      · left; rfl
      · left; rfl

/-- Witness for C7 at concrete record counts 500/150 000 and 50 000/50 000. -/
theorem C7_witness :
    (augmentDirections (List.replicate 500 sampleRow)
        (List.replicate 150000 sampleRow)).1.length = 150500 ∧
    augmentDirections (List.replicate 50000 sampleRow)
        (List.replicate 50000 sampleRow) =
      (List.replicate 50000 sampleRow, List.replicate 50000 sampleRow) := by
  constructor
  · exact ((C7_direction_augmentation _ _).2.2.1 (by rw [List.length_replicate])
      (by rw [List.length_replicate])).1
  · exact (C7_direction_augmentation _ _).2.1 (by rw [List.length_replicate])
      (by rw [List.length_replicate])

/-! ## Claim C8: full-replace is not failure-atomic -/

/-- Claim C8, counterexample: after two steps of `create_concepts_db` (the
`unlink` of the pre-existing store and the schema creation) a failure leaves
a partial store — not the pre-existing one — reachable at the output
location, though the write transaction has not succeeded. -/
theorem C8_counterexample :
    outputAfter 2 = OutputState.partialStore ∧
    2 < create_concepts_db_steps.length := by decide

/-- Claim C8, amended: `create_concepts_db` deletes a pre-existing store
*before* writing begins, so a failed run does not preserve the old store:
after the unlink the location is empty, from schema creation up to the final
commit it holds a partial store, and only the complete run yields the final
store.  The pre-existing store is unreachable from the first step onward. -/
theorem C8_amended :
    outputAfter 0 = OutputState.oldStore ∧
    outputAfter 1 = OutputState.absent ∧
    (∀ k, k < create_concepts_db_steps.length → 2 ≤ k →
      outputAfter k = OutputState.partialStore) ∧
    outputAfter create_concepts_db_steps.length = OutputState.finalStore ∧
    (∀ k, k ≤ create_concepts_db_steps.length → 1 ≤ k →
      outputAfter k ≠ OutputState.oldStore) := by decide

/-- Witness for C8's amended theorem at the failure point `k = 2`. -/
theorem C8_amended_witness :
    outputAfter 2 = OutputState.partialStore ∧
    outputAfter 2 ≠ OutputState.oldStore :=
  ⟨C8_amended.2.2.1 2 (by decide) (by decide),
   C8_amended.2.2.2.2 2 (by decide) (by decide)⟩

/-! ## Claim C9: duplicate-key insert policy -/

theorem formDup_append (tbl ext : List FormRow) (r : FormRow) :
    formDup (tbl ++ ext) r = (formDup tbl r || formDup ext r) := by
  simp [formDup, List.any_append]

theorem formDup_insert_self (tbl : List FormRow) (r : FormRow) :
    formDup (insertFormRow tbl r) r = true := by
  unfold insertFormRow
  by_cases h : formDup tbl r = true
  · rw [if_pos h]; exact h
  · rw [if_neg h, formDup_append, Bool.or_eq_true]
    right
    simp [formDup]

theorem formDup_insert_mono (tbl : List FormRow) (r r' : FormRow)
    (h : formDup tbl r = true) : formDup (insertFormRow tbl r') r = true := by
  unfold insertFormRow
  split
  · exact h
  · rw [formDup_append, h]; rfl

theorem formDup_foldl_mono (rows : List FormRow) : ∀ (tbl : List FormRow)
    (r : FormRow), formDup tbl r = true →
    formDup (insertFormsAll tbl rows) r = true := by
  induction rows with
  | nil => intro tbl r h; exact h
  | cons x rest ih =>
    intro tbl r h
    exact ih (insertFormRow tbl x) r (formDup_insert_mono tbl r x h)

theorem insertFormsAll_dup (rows : List FormRow) : ∀ (tbl : List FormRow),
    ∀ r ∈ rows, formDup (insertFormsAll tbl rows) r = true := by
  induction rows with
  | nil => intro tbl r hr; cases hr
  | cons x rest ih =>
    intro tbl r hr
    rcases List.mem_cons.mp hr with hx | hrest
    · subst hx
      exact formDup_foldl_mono rest (insertFormRow tbl r) r
        (formDup_insert_self tbl r)
    · exact ih (insertFormRow tbl x) r hrest

theorem insertFormsAll_noop (rows : List FormRow) : ∀ (tbl : List FormRow),
    (∀ r ∈ rows, formDup tbl r = true) → insertFormsAll tbl rows = tbl := by
  induction rows with
  | nil => intro tbl _; rfl
  | cons x rest ih =>
    intro tbl h
    have hx : insertFormRow tbl x = tbl := by
      unfold insertFormRow
      rw [if_pos (h x (List.mem_cons_self x rest))]
    show insertFormsAll (insertFormRow tbl x) rest = tbl
    rw [hx]
    exact ih tbl (fun r hr => h r (List.mem_cons_of_mem x hr))

theorem senseDup_append (tbl ext : List Sense) (r : Sense) :
    senseDup (tbl ++ ext) r = (senseDup tbl r || senseDup ext r) := by
  simp [senseDup, List.any_append]

theorem senseDup_insert_self (tbl : List Sense) (r : Sense) :
    senseDup (insertSenseRow tbl r) r = true := by
  unfold insertSenseRow
  by_cases h : senseDup tbl r = true
  · rw [if_pos h]; exact h
  · rw [if_neg h, senseDup_append, Bool.or_eq_true]
    right
    simp [senseDup]

theorem senseDup_insert_mono (tbl : List Sense) (r r' : Sense)
    (h : senseDup tbl r = true) : senseDup (insertSenseRow tbl r') r = true := by
  unfold insertSenseRow
  split
  · exact h
  · rw [senseDup_append, h]; rfl

theorem senseDup_foldl_mono (rows : List Sense) : ∀ (tbl : List Sense)
    (r : Sense), senseDup tbl r = true →
    senseDup (insertSensesAll tbl rows) r = true := by
  induction rows with
  | nil => intro tbl r h; exact h
  | cons x rest ih =>
    intro tbl r h
    exact ih (insertSenseRow tbl x) r (senseDup_insert_mono tbl r x h)

theorem insertSensesAll_dup (rows : List Sense) : ∀ (tbl : List Sense),
    ∀ r ∈ rows, senseDup (insertSensesAll tbl rows) r = true := by
  induction rows with
  | nil => intro tbl r hr; cases hr
  | cons x rest ih =>
    intro tbl r hr
    rcases List.mem_cons.mp hr with hx | hrest
    · subst hx
      exact senseDup_foldl_mono rest (insertSenseRow tbl r) r
        (senseDup_insert_self tbl r)
    · exact ih (insertSenseRow tbl x) r hrest

theorem insertSensesAll_noop (rows : List Sense) : ∀ (tbl : List Sense),
    (∀ r ∈ rows, senseDup tbl r = true) → insertSensesAll tbl rows = tbl := by
  induction rows with
  | nil => intro tbl _; rfl
  | cons x rest ih =>
    intro tbl h
    have hx : insertSenseRow tbl x = tbl := by
      unfold insertSenseRow
      rw [if_pos (h x (List.mem_cons_self x rest))]
    show insertSensesAll (insertSenseRow tbl x) rest = tbl
    rw [hx]
    exact ih tbl (fun r hr => h r (List.mem_cons_of_mem x hr))

/-- Claim C9: a duplicate-key insert into `forms` or `senses` is silently
ignored (`INSERT OR IGNORE`), making a re-run of the bulk load on identical
derived data a no-op, while a duplicate-key insert into `lemmas` or
`concepts` (plain `INSERT`) raises an integrity error instead of silently
overwriting. -/
theorem C9_duplicate_key_policy :
    (∀ (tbl : List FormRow) (r : FormRow), formDup tbl r = true →
      insertFormRow tbl r = tbl) ∧
    (∀ (tbl : List Sense) (r : Sense), senseDup tbl r = true →
      insertSenseRow tbl r = tbl) ∧
    (∀ (tbl : List FormRow) (rows : List FormRow),
      insertFormsAll (insertFormsAll tbl rows) rows = insertFormsAll tbl rows) ∧
    (∀ (tbl : List Sense) (rows : List Sense),
      insertSensesAll (insertSensesAll tbl rows) rows = insertSensesAll tbl rows) ∧
    (∀ (tbl : List LemmaRow) (r : LemmaRow), lemmaDup tbl r = true →
      insertLemmaRow tbl r = Except.error "UNIQUE constraint failed") ∧
    (∀ (tbl : List ConceptRow) (r : ConceptRow), conceptDup tbl r = true →
      insertConceptRow tbl r = Except.error "UNIQUE constraint failed") := by
  refine ⟨?_, ?_, ?_, ?_, ?_, ?_⟩
  · intro tbl r h; unfold insertFormRow; rw [if_pos h]
  · intro tbl r h; unfold insertSenseRow; rw [if_pos h]
  · intro tbl rows
    exact insertFormsAll_noop rows _ (insertFormsAll_dup rows tbl)
  · intro tbl rows
    exact insertSensesAll_noop rows _ (insertSensesAll_dup rows tbl)
  · intro tbl r h; unfold insertLemmaRow; rw [if_pos h]
  · intro tbl r h; unfold insertConceptRow; rw [if_pos h]

/-- Witness for C9 at concrete rows: a duplicate form row and a duplicate
`(lemma_id, concept_id)` sense row (even with a differing rank) are dropped,
while a reused lemma id and a reused concept id raise errors. -/
theorem C9_witness :
    insertFormRow [(⟨"es", "perros", 1, none⟩ : FormRow)] ⟨"es", "perros", 1, none⟩ =
      [(⟨"es", "perros", 1, none⟩ : FormRow)] ∧
    insertSenseRow [(⟨1, 2, 1⟩ : Sense)] ⟨1, 2, 3⟩ = [(⟨1, 2, 1⟩ : Sense)] ∧
    insertLemmaRow [(⟨1, "es", "perro", "NOUN", none⟩ : LemmaRow)]
        ⟨1, "es", "gato", "NOUN", none⟩ = Except.error "UNIQUE constraint failed" ∧
    insertConceptRow [(⟨1, "NOUN", "dog"⟩ : ConceptRow)] ⟨1, "NOUN", "cat"⟩ =
      Except.error "UNIQUE constraint failed" :=
  ⟨C9_duplicate_key_policy.1 _ _ (by decide),
   C9_duplicate_key_policy.2.1 _ _ (by decide),
   C9_duplicate_key_policy.2.2.2.2.1 _ _ (by decide),
   C9_duplicate_key_policy.2.2.2.2.2 _ _ (by decide)⟩

/-! ## Claim C10: record mirroring is an involution -/

/-- Claim C10: `reverse_translations` is an involution on record lists. -/
theorem C10_reverse_translations_involution (l : List TransRow) :
    reverse_translations (reverse_translations l) = l := by
  induction l with
  | nil => rfl
  | cons a t ih =>
    simp only [reverse_translations, List.map_cons, List.map_map] at ih ⊢
    exact congrArg (List.cons a) ih

/-! ## Supporting lemmas: orders and association lists -/

theorem lexLt_asymm : ∀ {a b : List Char}, lexLt a b = true → lexLt b a = false := by
  intro a
  induction a with
  | nil =>
    intro b h
    cases b with
    | nil => cases h
    | cons c cs => rfl
  | cons x xs ih =>
    intro b h
    cases b with
    | nil => cases h
    | cons y ys =>
      unfold lexLt at h ⊢
      by_cases h1 : x.toNat < y.toNat
      · rw [if_neg (by omega), if_pos h1]
      · rw [if_neg h1] at h
        by_cases h2 : y.toNat < x.toNat
        · rw [if_pos h2] at h; cases h
        · rw [if_neg h2] at h
          rw [if_neg h2, if_neg h1]
          exact ih h

theorem lexLt_connex : ∀ {a b : List Char}, lexLt a b = false → lexLt b a = false →
    a = b := by
  intro a
  induction a with
  | nil =>
    intro b h1 _
    cases b with
    | nil => rfl
    | cons c cs => cases h1
  | cons x xs ih =>
    intro b h1 h2
    cases b with
    | nil => cases h2
    | cons y ys =>
      unfold lexLt at h1 h2
      by_cases hxy : x.toNat < y.toNat
      · rw [if_pos hxy] at h1; cases h1
      · by_cases hyx : y.toNat < x.toNat
        · rw [if_pos hyx] at h2; cases h2
        · rw [if_neg hxy, if_neg hyx] at h1
          rw [if_neg hyx, if_neg hxy] at h2
          have hchar : x = y := by
            have hx : x.toNat = x.val.toNat := rfl
            have hy : y.toNat = y.val.toNat := rfl
            exact Char.ext (UInt32.ext (by omega))
          rw [hchar, ih h1 h2]

theorem lexLt_trans : ∀ {a b c : List Char}, lexLt a b = true → lexLt b c = true →
    lexLt a c = true := by
  intro a
  induction a with
  | nil =>
    intro b c h1 h2
    cases b with
    | nil => cases h1
    | cons y ys =>
      cases c with
      | nil => cases h2
      | cons z zs => rfl
  | cons x xs ih =>
    intro b c h1 h2
    cases b with
    | nil => cases h1
    | cons y ys =>
      cases c with
      | nil => cases h2
      | cons z zs =>
        unfold lexLt at h1 h2 ⊢
        by_cases hxy : x.toNat < y.toNat
        · by_cases hyz : y.toNat < z.toNat
          · rw [if_pos (by omega)]
          · rw [if_neg hyz] at h2
            by_cases hzy : z.toNat < y.toNat
            · rw [if_pos hzy] at h2; cases h2
            · rw [if_pos (by omega)]
        · rw [if_neg hxy] at h1
          by_cases hyx : y.toNat < x.toNat
          · rw [if_pos hyx] at h1; cases h1
          · rw [if_neg hyx] at h1
            by_cases hyz : y.toNat < z.toNat
            · rw [if_pos (by omega)]
            · rw [if_neg hyz] at h2
              by_cases hzy : z.toNat < y.toNat
              · rw [if_pos hzy] at h2; cases h2
              · rw [if_neg hzy] at h2
                rw [if_neg (by omega), if_neg (by omega)]
                exact ih h1 h2

theorem keyLt_true_iff {a b : SrcKey × Nat} : keyLt a b = true ↔
    (a.2 < b.2 ∨ (a.2 = b.2 ∧ lexLt a.1.lemmaStr.data b.1.lemmaStr.data = true)) := by
  unfold keyLt
  by_cases h1 : a.2 < b.2
  · rw [if_pos h1]
    simp [h1]
  · rw [if_neg h1]
    by_cases h2 : b.2 < a.2
    · rw [if_pos h2]
      simp only [Bool.false_eq_true, false_iff]
      push_neg
      exact ⟨by omega, fun he => absurd he (by omega)⟩
    · rw [if_neg h2]
      have he : a.2 = b.2 := by omega
      simp [he, h1]

theorem keyLt_false_of (a b : SrcKey × Nat) (h1 : keyLt a b = false)
    (h2 : keyLt b a = false) :
    a.2 = b.2 ∧ a.1.lemmaStr.data = b.1.lemmaStr.data := by
  unfold keyLt at h1 h2
  by_cases hn1 : a.2 < b.2
  · rw [if_pos hn1] at h1; cases h1
  · by_cases hn2 : b.2 < a.2
    · rw [if_pos hn2] at h2; cases h2
    · have he : a.2 = b.2 := by omega
      rw [if_neg hn1, if_neg hn2] at h1
      rw [if_neg hn2, if_neg hn1] at h2
      exact ⟨he, lexLt_connex h1 h2⟩

theorem keyLt_false_parts {a b : SrcKey × Nat} (h : keyLt b a = false) :
    a.2 ≤ b.2 ∧
      (b.2 = a.2 → lexLt b.1.lemmaStr.data a.1.lemmaStr.data = false) := by
  constructor
  · by_contra hc
    push_neg at hc
    exact absurd (keyLt_true_iff.mpr (Or.inl hc)) (by simp [h])
  · intro he
    by_contra hc
    exact absurd
      (keyLt_true_iff.mpr (Or.inr ⟨he, Bool.not_eq_false _ ▸ hc⟩))
      (by simp [h])

instance : IsTotal (SrcKey × Nat) keyLe :=
  ⟨by
    intro a b
    unfold keyLe
    cases h : keyLt b a with
    | false => left; rfl
    | true =>
      right
      cases hq : keyLt a b with
      | false => rfl
      | true =>
        exfalso
        rcases keyLt_true_iff.mp h with h1 | ⟨h1, h2⟩
        · rcases keyLt_true_iff.mp hq with h3 | ⟨h3, _⟩
          · omega
          · omega
        · rcases keyLt_true_iff.mp hq with h3 | ⟨h3, h4⟩
          · omega
          · exact absurd (lexLt_asymm h4) (by simp [h2])⟩

instance : IsTrans (SrcKey × Nat) keyLe :=
  ⟨by
    intro a b c hab hbc
    unfold keyLe at hab hbc ⊢
    obtain ⟨h1, h2⟩ := keyLt_false_parts hab
    obtain ⟨h3, h4⟩ := keyLt_false_parts hbc
    cases hq : keyLt c a with
    | false => rfl
    | true =>
      exfalso
      rcases keyLt_true_iff.mp hq with h5 | ⟨h5, h6⟩
      · omega
      · have l1 := h2 (by omega)
        have l2 := h4 (by omega)
        by_cases hbc2 : lexLt b.1.lemmaStr.data c.1.lemmaStr.data = true
        · exact absurd (lexLt_trans hbc2 h6) (by simp [l1])
        · have hcb := lexLt_connex l2 (Bool.eq_false_iff.mpr hbc2)
          rw [hcb] at h6
          exact absurd h6 (by simp [l1])⟩

theorem alookup_mem {α β : Type} [DecidableEq α] {k : α} {v : β} :
    ∀ {l : List (α × β)}, alookup k l = some v → (k, v) ∈ l := by
  intro l
  induction l with
  | nil => intro h; cases h
  | cons p rest ih =>
    intro h
    unfold alookup at h
    by_cases hp : p.1 = k
    · rw [if_pos hp] at h
      cases h
      have hkp : (k, p.2) = p := by rw [← hp]
      rw [hkp]
      exact List.mem_cons_self p rest
    · rw [if_neg hp] at h
      exact List.mem_cons_of_mem _ (ih h)

theorem alookup_isSome_iff {α β : Type} [DecidableEq α] {k : α} :
    ∀ {l : List (α × β)}, (alookup k l).isSome = true ↔ k ∈ l.map Prod.fst := by
  intro l
  induction l with
  | nil => simp [alookup]
  | cons p rest ih =>
    simp only [alookup, List.map_cons, List.mem_cons]
    by_cases hp : p.1 = k
    · rw [if_pos hp]
      simp [hp.symm]
    · rw [if_neg hp]
      rw [ih]
      constructor
      · intro h; right; exact h
      · rintro (h | h)
        · exact absurd h.symm hp
        · exact h

theorem dictInsert_fresh {α β : Type} [DecidableEq α] {k : α} (v : β) :
    ∀ {l : List (α × β)}, k ∉ l.map Prod.fst → dictInsert l k v = l ++ [(k, v)] := by
  intro l
  induction l with
  | nil => intro _; rfl
  | cons p rest ih =>
    intro h
    simp only [List.map_cons, List.mem_cons] at h
    push_neg at h
    unfold dictInsert
    rw [if_neg (fun hc => h.1 hc.symm)]
    rw [List.cons_append]
    exact congrArg (p :: ·) (ih h.2)

theorem sortBucket_pairwise (b : Bucket) : List.Pairwise keyLe (sortBucket b) :=
  List.sorted_insertionSort keyLe b

theorem sortBucket_perm (b : Bucket) : (sortBucket b).Perm b :=
  List.perm_insertionSort keyLe b

theorem byLangInsert_char : ∀ (acc : List (String × Bucket)) (it : SrcKey × Nat),
    ((byLangInsert acc it).map Prod.fst = acc.map Prod.fst ∧
      ∃ pre items post, acc = pre ++ (it.1.lang, items) :: post ∧
        byLangInsert acc it = pre ++ (it.1.lang, items ++ [it]) :: post ∧
        it.1.lang ∉ pre.map Prod.fst) ∨
    (it.1.lang ∉ acc.map Prod.fst ∧ byLangInsert acc it = acc ++ [(it.1.lang, [it])]) := by
  intro acc it
  induction acc with
  | nil => right; exact ⟨by simp, rfl⟩
  | cons e rest ih =>
    unfold byLangInsert
    by_cases he : e.1 = it.1.lang
    · rw [if_pos he]
      left
      constructor
      · simp [he]
      · refine ⟨[], e.2, rest, ?_, ?_, by simp⟩
        · simp only [List.nil_append]
          rw [show (it.1.lang, e.2) = e by rw [← he]]
        · simp [he]
    · rw [if_neg he]
      rcases ih with ⟨hk, pre, items, post, hacc, hres, hpre⟩ | ⟨hnot, hres⟩
      · left
        constructor
        · simp [hk]
        · refine ⟨e :: pre, items, post, ?_, ?_, ?_⟩
          · rw [List.cons_append, ← hacc]
          · rw [hres, List.cons_append]
          · simp only [List.map_cons, List.mem_cons]
            push_neg
            exact ⟨fun hc => he hc.symm, hpre⟩
      · right
        constructor
        · simp only [List.map_cons, List.mem_cons]
          push_neg
          exact ⟨fun hc => he hc.symm, hnot⟩
        · rw [hres, List.cons_append]

theorem groupsWF_insert {xs : Bucket} {acc : List (String × Bucket)}
    (h : GroupsWF xs acc) (it : SrcKey × Nat) :
    GroupsWF (xs ++ [it]) (byLangInsert acc it) := by
  obtain ⟨hnd, hchar, hcov⟩ := h
  have hfilter_self : List.filter (fun x => x.1.lang == it.1.lang) [it] = [it] := by
    simp
  rcases byLangInsert_char acc it with
    ⟨hk, pre, items, post, hacc, hres, hpre⟩ | ⟨hnot, hres⟩
  · have hmemkey : it.1.lang ∈ acc.map Prod.fst := by
      rw [hacc]
      simp
    have hpost : it.1.lang ∉ post.map Prod.fst := by
      have := hnd
      rw [hacc] at this
      simp only [List.map_append, List.map_cons] at this
      rcases List.nodup_append.mp this with ⟨_, hmid, _⟩
      exact (List.nodup_cons.mp hmid).1
    refine ⟨by rw [hk]; exact hnd, ?_, ?_⟩
    · intro e he
      rw [hres] at he
      rcases List.mem_append.mp he with hin | hin
      · have hne : e.1 ≠ it.1.lang := by
          intro hc
          exact hpre (hc ▸ List.mem_map_of_mem Prod.fst hin)
        have hold := hchar e (by rw [hacc]; exact List.mem_append_left _ hin)
        rw [hold, List.filter_append]
        have hf : (it.1.lang == e.1) = false := by
          rw [beq_eq_false_iff_ne]
          exact fun hc => hne hc.symm
        rw [show List.filter (fun x => x.1.lang == e.1) [it] = [] by simp [hf],
          List.append_nil]
      · rcases List.mem_cons.mp hin with hin | hin
        · subst hin
          have hold := hchar (it.1.lang, items)
            (by rw [hacc]; exact List.mem_append_right _ (List.mem_cons_self _ _))
          simp only at hold ⊢
          rw [hold, List.filter_append, hfilter_self]
        · have hne : e.1 ≠ it.1.lang := by
            intro hc
            exact hpost (hc ▸ List.mem_map_of_mem Prod.fst hin)
          have hold := hchar e
            (by rw [hacc]; exact List.mem_append_right _ (List.mem_cons_of_mem _ hin))
          rw [hold, List.filter_append]
          have hf : (it.1.lang == e.1) = false := by
            rw [beq_eq_false_iff_ne]
            exact fun hc => hne hc.symm
          rw [show List.filter (fun x => x.1.lang == e.1) [it] = [] by simp [hf],
            List.append_nil]
    · intro it' hit'
      rw [hk]
      rcases List.mem_append.mp hit' with hin | hin
      · exact hcov it' hin
      · rcases List.mem_cons.mp hin with hin | hin
        · rw [hin]
          exact hmemkey
        · cases hin
  · refine ⟨?_, ?_, ?_⟩
    · rw [hres, List.map_append]
      rw [List.nodup_append]
      refine ⟨hnd, by simp, ?_⟩
      intro a ha hb
      simp only [List.map_cons, List.map_nil, List.mem_cons, List.not_mem_nil,
        or_false] at hb
      exact hnot (hb ▸ ha)
    · intro e he
      rw [hres] at he
      rcases List.mem_append.mp he with hin | hin
      · have hne : e.1 ≠ it.1.lang := by
          intro hc
          exact hnot (hc ▸ List.mem_map_of_mem Prod.fst hin)
        rw [hchar e hin, List.filter_append]
        have hf : (it.1.lang == e.1) = false := by
          rw [beq_eq_false_iff_ne]
          exact fun hc => hne hc.symm
        rw [show List.filter (fun x => x.1.lang == e.1) [it] = [] by simp [hf],
          List.append_nil]
      · rcases List.mem_cons.mp hin with hin | hin
        · subst hin
          simp only
          have hxs : List.filter (fun x => x.1.lang == it.1.lang) xs = [] := by
            rw [List.filter_eq_nil_iff]
            intro a ha
            simp only [beq_iff_eq]
            intro hc
            exact hnot (hc ▸ hcov a ha)
          rw [List.filter_append, hxs, hfilter_self, List.nil_append]
        · cases hin
    · intro it' hit'
      rw [hres, List.map_append]
      rcases List.mem_append.mp hit' with hin | hin
      · exact List.mem_append_left _ (hcov it' hin)
      · rcases List.mem_cons.mp hin with hin | hin
        · rw [hin]
          exact List.mem_append_right _ (by simp)
        · cases hin

theorem groupByLang_WF (xs : Bucket) : GroupsWF xs (groupByLang xs) := by
  induction xs using List.reverseRecOn with
  | nil =>
    exact ⟨by simp [groupByLang], by simp [groupByLang], by simp⟩
  | append_singleton ys x ih =>
    show GroupsWF (ys ++ [x]) (List.foldl byLangInsert [] (ys ++ [x]))
    rw [List.foldl_append]
    exact groupsWF_insert ih x

theorem rankFrom_keys : ∀ (items : Bucket) (r : Nat),
    (rankFrom r items).map Prod.fst = items.map Prod.fst := by
  intro items
  induction items with
  | nil => intro r; rfl
  | cons it rest ih =>
    intro r
    simp only [rankFrom, List.map_cons]
    rw [ih (r + 1)]

theorem rankFrom_rank_lb : ∀ (items : Bucket) (r : Nat),
    ∀ e ∈ rankFrom r items, r ≤ e.2 := by
  intro items
  induction items with
  | nil => intro r e he; cases he
  | cons it rest ih =>
    intro r e he
    rcases List.mem_cons.mp he with he | he
    · rw [he]
    · exact Nat.le_of_succ_le (ih (r + 1) e he)

theorem rankFrom_rank_pairwise : ∀ (items : Bucket) (r : Nat),
    List.Pairwise (fun x y => x.2 < y.2) (rankFrom r items) := by
  intro items
  induction items with
  | nil => intro r; exact List.Pairwise.nil
  | cons it rest ih =>
    intro r
    refine List.Pairwise.cons ?_ (ih (r + 1))
    intro e he
    exact rankFrom_rank_lb rest (r + 1) e he

theorem rankFrom_key_pairwise {R : SrcKey → SrcKey → Prop} : ∀ (items : Bucket)
    (r : Nat), List.Pairwise (fun x y => R x.1 y.1) items →
    List.Pairwise (fun x y => R x.1 y.1) (rankFrom r items) := by
  intro items
  induction items with
  | nil => intro r _; exact List.Pairwise.nil
  | cons it rest ih =>
    intro r h
    rcases List.pairwise_cons.mp h with ⟨hhead, htail⟩
    refine List.Pairwise.cons ?_ (ih (r + 1) htail)
    intro e he
    have he' : e.1 ∈ (rankFrom (r + 1) rest).map Prod.fst :=
      List.mem_map_of_mem Prod.fst he
    rw [rankFrom_keys] at he'
    rcases List.mem_map.mp he' with ⟨it', hit', hfst⟩
    have := hhead it' hit'
    rw [hfst] at this
    exact this

theorem forall₂_append {α β : Type} {R : α → β → Prop} :
    ∀ {l1 l1' : List α} {l2 l2' : List β}, List.Forall₂ R l1 l2 →
    List.Forall₂ R l1' l2' → List.Forall₂ R (l1 ++ l1') (l2 ++ l2') := by
  intro l1
  induction l1 with
  | nil =>
    intro l1' l2 l2' h1 h2
    cases h1
    exact h2
  | cons a t ih =>
    intro l1' l2 l2' h1 h2
    cases h1 with
    | cons hab ht =>
      exact List.Forall₂.cons hab (ih ht h2)

theorem forall₂_mem_left {α β : Type} {R : α → β → Prop} :
    ∀ {l1 : List α} {l2 : List β}, List.Forall₂ R l1 l2 →
    ∀ a ∈ l1, ∃ b ∈ l2, R a b := by
  intro l1
  induction l1 with
  | nil => intro l2 _ a ha; cases ha
  | cons x t ih =>
    intro l2 h a ha
    cases h with
    | cons hxy ht =>
      rcases List.mem_cons.mp ha with ha | ha
      · subst ha
        exact ⟨_, List.mem_cons_self _ _, hxy⟩
      · rcases ih ht a ha with ⟨b, hb, hr⟩
        exact ⟨b, List.mem_cons_of_mem _ hb, hr⟩

theorem forall₂_filter_length {α β : Type} {R : α → β → Prop}
    {p : α → Bool} {q : β → Bool} :
    ∀ {l1 : List α} {l2 : List β}, List.Forall₂ R l1 l2 →
    (∀ a b, R a b → p a = q b) →
    (l1.filter p).length = (l2.filter q).length := by
  intro l1
  induction l1 with
  | nil => intro l2 h _; cases h; rfl
  | cons a t ih =>
    intro l2 h hpq
    cases h with
    | cons hab ht =>
      rw [List.filter_cons, List.filter_cons]
      rw [hpq a _ hab]
      split
      · simp only [List.length_cons]
        rw [ih ht hpq]
      · exact ih ht hpq

theorem forall₂_pairwise {α β : Type} {R : α → β → Prop}
    {Q : β → β → Prop} {Q2 : α → α → Prop} :
    ∀ {l1 : List α} {l2 : List β}, List.Forall₂ R l1 l2 →
    List.Pairwise Q l2 →
    (∀ a b a' b', R a a' → R b b' → Q a' b' → Q2 a b) →
    List.Pairwise Q2 l1 := by
  intro l1
  induction l1 with
  | nil => intro l2 _ _ _; exact List.Pairwise.nil
  | cons a t ih =>
    intro l2 hf hp himp
    cases hf with
    | cons hab ht =>
      rcases List.pairwise_cons.mp hp with ⟨hhead, htail⟩
      refine List.Pairwise.cons ?_ (ih ht htail himp)
      intro y hy
      rcases forall₂_mem_left ht y hy with ⟨y', hy', hr⟩
      exact himp a y _ y' hab hr (hhead y' hy')

/-! ## Supporting lemmas: the Concept Clusterer state machine -/

theorem senseMatches_mono {st1 st2 : BState} {cid : Nat} {s : Sense}
    {kr : SrcKey × Nat} (hl : ∃ L, st2.lemmas = st1.lemmas ++ L)
    (h : senseMatches st1 cid s kr) : senseMatches st2 cid s kr := by
  obtain ⟨L, hL⟩ := hl
  exact ⟨h.1, h.2.1, by rw [hL]; exact List.mem_append_left _ h.2.2⟩

theorem ensureLemma_spec (st : BState) (k : SrcKey) (hinv : StInv st) :
    (∃ L, (ensureLemma st k).1.lemmas = st.lemmas ++ L) ∧
    (k, (ensureLemma st k).2) ∈ (ensureLemma st k).1.lemmas ∧
    StInv (ensureLemma st k).1 ∧
    (ensureLemma st k).1.senses = st.senses ∧
    (ensureLemma st k).1.concepts = st.concepts ∧
    (ensureLemma st k).1.next_concept_id = st.next_concept_id := by
  unfold ensureLemma
  cases hl : alookup k st.lemmas with
  | some i =>
    exact ⟨⟨[], (List.append_nil _).symm⟩, alookup_mem hl, hinv, rfl, rfl, rfl⟩
  | none =>
    refine ⟨⟨[(k, st.next_lemma_id)], rfl⟩,
      List.mem_append_right _ (List.mem_cons_self _ _), ?_, rfl, rfl, rfl⟩
    refine ⟨?_, ?_, ?_, ?_, ?_⟩
    · intro p hp q hq hpq
      rcases List.mem_append.mp hp with hp | hp <;>
        rcases List.mem_append.mp hq with hq | hq
      · exact hinv.inj p hp q hq hpq
      · exfalso
        rw [List.mem_singleton.mp hq] at hpq
        exact absurd hpq (Nat.ne_of_lt (hinv.bound p hp))
      · exfalso
        rw [List.mem_singleton.mp hp] at hpq
        exact absurd hpq.symm (Nat.ne_of_lt (hinv.bound q hq))
      · rw [List.mem_singleton.mp hp, List.mem_singleton.mp hq]
    · intro p hp
      rcases List.mem_append.mp hp with hp | hp
      · exact Nat.lt_succ_of_lt (hinv.bound p hp)
      · rw [List.mem_singleton.mp hp]
        exact Nat.lt_succ_self _
    · intro s hs
      rcases hinv.closed s hs with ⟨p, hp, hps⟩
      exact ⟨p, List.mem_append_left _ hp, hps⟩
    · exact hinv.cidBound
    · exact hinv.cBound

theorem addRanked_spec (cid : Nat) : ∀ (items : Bucket) (st : BState) (r : Nat),
    StInv st → cid < st.next_concept_id →
    StInv (addRanked cid st r items) ∧
    (∃ L, (addRanked cid st r items).lemmas = st.lemmas ++ L) ∧
    (addRanked cid st r items).concepts = st.concepts ∧
    (addRanked cid st r items).next_concept_id = st.next_concept_id ∧
    ∃ new, (addRanked cid st r items).senses = st.senses ++ new ∧
      List.Forall₂ (senseMatches (addRanked cid st r items) cid) new
        (rankFrom r items) := by
  intro items
  induction items with
  | nil =>
    intro st r hinv _
    exact ⟨hinv, ⟨[], (List.append_nil _).symm⟩, rfl, rfl, [],
      (List.append_nil _).symm, List.Forall₂.nil⟩
  | cons it rest ih =>
    intro st r hinv hcid
    obtain ⟨⟨L0, hL0⟩, hmem, hinv1, hsen1, hcon1, hnc1⟩ := ensureLemma_spec st it.1 hinv
    have hstep : addRanked cid st r (it :: rest) =
        addRanked cid
          { (ensureLemma st it.1).1 with
            senses := (ensureLemma st it.1).1.senses ++
              [⟨(ensureLemma st it.1).2, cid, r⟩] } (r + 1) rest := rfl
    set q := ensureLemma st it.1 with hq
    set st' : BState :=
      { q.1 with senses := q.1.senses ++ [⟨q.2, cid, r⟩] } with hst'
    have hinv' : StInv st' := by
      refine ⟨hinv1.inj, hinv1.bound, ?_, ?_, hinv1.cBound⟩
      · intro s hs
        rcases List.mem_append.mp hs with hs | hs
        · exact hinv1.closed s hs
        · rw [List.mem_singleton.mp hs]
          exact ⟨(it.1, q.2), hmem, rfl⟩
      · intro s hs
        rcases List.mem_append.mp hs with hs | hs
        · exact hinv1.cidBound s hs
        · rw [List.mem_singleton.mp hs]
          show cid < q.1.next_concept_id
          rw [hnc1]
          exact hcid
    have hcid' : cid < st'.next_concept_id := by
      show cid < q.1.next_concept_id
      rw [hnc1]
      exact hcid
    obtain ⟨hinvR, ⟨L1, hL1⟩, hconR, hncR, new1, hnew1, hf⟩ := ih st' (r + 1) hinv' hcid'
    rw [hstep]
    refine ⟨hinvR, ?_, ?_, ?_, ?_⟩
    · refine ⟨L0 ++ L1, ?_⟩
      rw [hL1]
      show st'.lemmas ++ L1 = st.lemmas ++ (L0 ++ L1)
      show q.1.lemmas ++ L1 = st.lemmas ++ (L0 ++ L1)
      rw [hL0, List.append_assoc]
    · rw [hconR]
      exact hcon1
    · rw [hncR]
      exact hnc1
    · refine ⟨⟨q.2, cid, r⟩ :: new1, ?_, ?_⟩
      · rw [hnew1]
        show (q.1.senses ++ [⟨q.2, cid, r⟩]) ++ new1 = st.senses ++ (⟨q.2, cid, r⟩ :: new1)
        rw [hsen1, List.append_assoc]
        rfl
      · show List.Forall₂ _ _ (rankFrom r (it :: rest))
        rw [rankFrom]
        refine List.Forall₂.cons ⟨rfl, rfl, ?_⟩ hf
        rw [hL1]
        exact List.mem_append_left _ hmem

theorem groupsFold_spec (cid : Nat) : ∀ (groups : List (String × Bucket))
    (st : BState), StInv st → cid < st.next_concept_id →
    StInv (groups.foldl (fun s g => addLangSenses cid s g.2) st) ∧
    (∃ L, (groups.foldl (fun s g => addLangSenses cid s g.2) st).lemmas =
      st.lemmas ++ L) ∧
    (groups.foldl (fun s g => addLangSenses cid s g.2) st).concepts = st.concepts ∧
    (groups.foldl (fun s g => addLangSenses cid s g.2) st).next_concept_id =
      st.next_concept_id ∧
    ∃ new, (groups.foldl (fun s g => addLangSenses cid s g.2) st).senses =
        st.senses ++ new ∧
      List.Forall₂ (senseMatches (groups.foldl (fun s g => addLangSenses cid s g.2) st) cid)
        new ((groups.map (fun g => rankFrom 1 (g.2.take 3))).flatten) := by
  intro groups
  induction groups with
  | nil =>
    intro st hinv _
    exact ⟨hinv, ⟨[], (List.append_nil _).symm⟩, rfl, rfl, [],
      (List.append_nil _).symm, List.Forall₂.nil⟩
  | cons g rest ih =>
    intro st hinv hcid
    obtain ⟨hinv1, hL1, hcon1, hnc1, new1, hnew1, hf1⟩ :=
      addRanked_spec cid (g.2.take 3) st 1 hinv hcid
    have hstep : List.foldl (fun s g => addLangSenses cid s g.2) st (g :: rest) =
        List.foldl (fun s g => addLangSenses cid s g.2) (addLangSenses cid st g.2)
          rest := rfl
    have hcid1 : cid < (addLangSenses cid st g.2).next_concept_id := by
      show cid < (addRanked cid st 1 (g.2.take 3)).next_concept_id
      rw [hnc1]
      exact hcid
    obtain ⟨hinvR, ⟨L2, hL2⟩, hconR, hncR, new2, hnew2, hf2⟩ :=
      ih (addLangSenses cid st g.2) hinv1 hcid1
    rw [hstep]
    refine ⟨hinvR, ?_, ?_, ?_, ?_⟩
    · obtain ⟨L1', hL1'⟩ := hL1
      refine ⟨L1' ++ L2, ?_⟩
      rw [hL2]
      show (addRanked cid st 1 (g.2.take 3)).lemmas ++ L2 = _
      rw [hL1', List.append_assoc]
    · rw [hconR]
      exact hcon1
    · rw [hncR]
      exact hnc1
    · refine ⟨new1 ++ new2, ?_, ?_⟩
      · rw [hnew2]
        show (addRanked cid st 1 (g.2.take 3)).senses ++ new2 = _
        rw [hnew1, List.append_assoc]
      · show List.Forall₂ _ _
          (((g :: rest).map (fun g => rankFrom 1 (g.2.take 3))).flatten)
        rw [List.map_cons, List.flatten_cons]
        refine forall₂_append (List.Forall₂.imp (fun s kr h => ?_) hf1) hf2
        exact senseMatches_mono ⟨L2, hL2⟩ h

theorem conceptSenses_append_eq (old new : List Sense) (cid : Nat)
    (hold : ∀ s ∈ old, s.concept_id ≠ cid) (hnew : ∀ s ∈ new, s.concept_id = cid) :
    List.filter (fun s => s.concept_id == cid) (old ++ new) = new := by
  rw [List.filter_append]
  rw [List.filter_eq_nil_iff.mpr (fun s hs => by
    simp only [beq_iff_eq]
    exact hold s hs)]
  rw [List.filter_eq_self.mpr (fun s hs => by
    simp only [beq_iff_eq]
    exact hnew s hs)]
  exact List.nil_append new

theorem processBucket_spec (st : BState) (ck : CKey) (b : Bucket)
    (hinv : StInv st) (hfresh : ck ∉ st.concepts.map Prod.fst) :
    (processBucket st (ck, b)).concepts = st.concepts ++ [(ck, st.next_concept_id)] ∧
    (processBucket st (ck, b)).next_concept_id = st.next_concept_id + 1 ∧
    (∃ L, (processBucket st (ck, b)).lemmas = st.lemmas ++ L) ∧
    StInv (processBucket st (ck, b)) ∧
    ∃ new, (processBucket st (ck, b)).senses = st.senses ++ new ∧
      List.Forall₂ (senseMatches (processBucket st (ck, b)) st.next_concept_id)
        new (bucketSpec ck b) := by
  set cid := st.next_concept_id with hcidd
  set st1 : BState := { st with next_concept_id := st.next_concept_id + 1, concepts := dictInsert st.concepts ck cid } with hst1
  have hd : dictInsert st.concepts ck cid = st.concepts ++ [(ck, cid)] :=
    dictInsert_fresh cid hfresh
  have hinv1 : StInv st1 := by
    refine ⟨hinv.inj, hinv.bound, hinv.closed, ?_, ?_⟩
    · intro s hs
      exact Nat.lt_succ_of_lt (hinv.cidBound s hs)
    · intro c hc
      show c.2 < st.next_concept_id + 1
      have hc2 : c ∈ dictInsert st.concepts ck cid := hc
      rw [hd] at hc2
      rcases List.mem_append.mp hc2 with hc | hc
      · exact Nat.lt_succ_of_lt (hinv.cBound c hc)
      · rw [List.mem_singleton.mp hc]
        exact Nat.lt_succ_self _
  have hcid1 : cid < st1.next_concept_id := Nat.lt_succ_self _
  set groups := groupByLang (sortBucket b) with hgroups
  obtain ⟨hinv2, ⟨L2, hL2⟩, hcon2, hnc2, new2, hnew2, hf2⟩ :=
    groupsFold_spec cid groups st1 hinv1 hcid1
  set st2 := groups.foldl (fun s g => addLangSenses cid s g.2) st1 with hst2
  obtain ⟨⟨L3, hL3⟩, hmem3, hinv3, hsen3, hcon3, hnc3⟩ :=
    ensureLemma_spec st2 ⟨"en", ck.gloss, ck.pos⟩ hinv2
  set q := ensureLemma st2 ⟨"en", ck.gloss, ck.pos⟩ with hq
  have hres : processBucket st (ck, b) =
      { q.1 with senses := q.1.senses ++ [⟨q.2, cid, 1⟩] } := rfl
  rw [hres]
  have hlem : q.1.lemmas = st.lemmas ++ (L2 ++ L3) := by
    rw [hL3, hL2]
    show (st.lemmas ++ L2) ++ L3 = _
    rw [List.append_assoc]
  refine ⟨?_, ?_, ⟨L2 ++ L3, hlem⟩, ?_, ?_⟩
  · show q.1.concepts = _
    rw [hcon3, hcon2]
    show dictInsert st.concepts ck cid = _
    exact hd
  · show q.1.next_concept_id = _
    rw [hnc3, hnc2]
  · refine ⟨hinv3.inj, hinv3.bound, ?_, ?_, ?_⟩
    · intro s hs
      rcases List.mem_append.mp hs with hs | hs
      · exact hinv3.closed s hs
      · rw [List.mem_singleton.mp hs]
        exact ⟨(⟨"en", ck.gloss, ck.pos⟩, q.2), hmem3, rfl⟩
    · intro s hs
      rcases List.mem_append.mp hs with hs | hs
      · exact hinv3.cidBound s hs
      · rw [List.mem_singleton.mp hs]
        show cid < q.1.next_concept_id
        rw [hnc3, hnc2]
        exact hcid1
    · exact hinv3.cBound
  · refine ⟨new2 ++ [⟨q.2, cid, 1⟩], ?_, ?_⟩
    · show q.1.senses ++ [⟨q.2, cid, 1⟩] = _
      rw [hsen3, hnew2]
      show (st1.senses ++ new2) ++ _ = _
      show (st.senses ++ new2) ++ _ = _
      rw [List.append_assoc]
    · show List.Forall₂ _ _ (bucketSpec ck b)
      unfold bucketSpec
      refine forall₂_append (List.Forall₂.imp (fun s kr h => ?_) hf2) ?_
      · exact senseMatches_mono ⟨L3, by rw [hL3]⟩ h
      · refine List.Forall₂.cons ⟨rfl, rfl, ?_⟩ List.Forall₂.nil
        exact hmem3

/-! ## Supporting lemmas: hub accumulation and lexicon extraction -/

theorem hubInsert_keys (hk : CKey) (k : SrcKey) (n : Nat) : ∀ (h : Hub),
    (hubInsert h hk k n).map Prod.fst =
      (if hk ∈ h.map Prod.fst then h.map Prod.fst else h.map Prod.fst ++ [hk]) := by
  intro h
  induction h with
  | nil => simp [hubInsert]
  | cons e rest ih =>
    unfold hubInsert
    by_cases he : e.1 = hk
    · rw [if_pos he]
      have : hk ∈ (e :: rest).map Prod.fst := by
        rw [List.map_cons, he]
        exact List.mem_cons_self _ _
      rw [if_pos this]
      simp
    · rw [if_neg he]
      by_cases hmem : hk ∈ rest.map Prod.fst
      · have : hk ∈ (e :: rest).map Prod.fst := by
          rw [List.map_cons]
          exact List.mem_cons_of_mem _ hmem
        rw [if_pos this]
        rw [List.map_cons, List.map_cons, ih, if_pos hmem]
      · have : hk ∉ (e :: rest).map Prod.fst := by
          rw [List.map_cons, List.mem_cons]
          push_neg
          exact ⟨fun hc => he hc.symm, hmem⟩
        rw [if_neg this]
        rw [List.map_cons, List.map_cons, ih, if_neg hmem, List.cons_append]

theorem bucketInsert_items {P : SrcKey × Nat → Prop} {b : Bucket} {k : SrcKey}
    {n : Nat} (hb : ∀ it ∈ b, P it) (hkn : P (k, n)) :
    ∀ it ∈ bucketInsert b k n, P it := by
  intro it hit
  unfold bucketInsert at hit
  split at hit
  · exact hb it hit
  · rcases List.mem_append.mp hit with h | h
    · exact hb it h
    · rw [List.mem_singleton.mp h]
      exact hkn

theorem bucketInsert_nodup {b : Bucket} {k : SrcKey} {n : Nat}
    (hb : (b.map Prod.fst).Nodup) :
    ((bucketInsert b k n).map Prod.fst).Nodup := by
  unfold bucketInsert
  split
  · exact hb
  · next hcond =>
    rw [List.map_append]
    rw [List.nodup_append]
    refine ⟨hb, by simp, ?_⟩
    intro a ha hmem
    simp only [List.map_cons, List.map_nil, List.mem_cons, List.not_mem_nil,
      or_false] at hmem
    subst hmem
    exact hcond (by rw [alookup_isSome_iff]; exact ha)

theorem hubInsert_WF {pc : List ((String × String) × String)} {h : Hub}
    {hk : CKey} {k : SrcKey} {n : Nat} (hwf : HubWF pc h)
    (hk1 : k.lang ≠ "en") (hk2 : n = k.lemmaStr.length)
    (hk3 : k.pos = (alookup (k.lang, k.lemmaStr) pc).getD "UNKNOWN") :
    HubWF pc (hubInsert h hk k n) := by
  induction h with
  | nil =>
    refine ⟨by simp [hubInsert], ?_, ?_⟩
    · intro e he it hit
      rcases List.mem_singleton.mp he with rfl
      rcases List.mem_singleton.mp hit with rfl
      exact ⟨hk1, hk2, hk3⟩
    · intro e he
      rcases List.mem_singleton.mp he with rfl
      simp
  | cons e rest ih =>
    obtain ⟨hnd, hitems, hinodup⟩ := hwf
    have hnd' := List.nodup_cons.mp (by rw [List.map_cons] at hnd; exact hnd)
    have hrest : HubWF pc rest :=
      ⟨hnd'.2, fun e' he' => hitems e' (List.mem_cons_of_mem _ he'),
        fun e' he' => hinodup e' (List.mem_cons_of_mem _ he')⟩
    unfold hubInsert
    by_cases he : e.1 = hk
    · rw [if_pos he]
      refine ⟨?_, ?_, ?_⟩
      · rw [List.map_cons] at hnd ⊢
        exact hnd
      · intro e' he' it hit
        rcases List.mem_cons.mp he' with he' | he'
        · have hall : ∀ it' ∈ bucketInsert e.2 k n, it'.1.lang ≠ "en" ∧
              it'.2 = it'.1.lemmaStr.length ∧
              it'.1.pos = (alookup (it'.1.lang, it'.1.lemmaStr) pc).getD "UNKNOWN" :=
            bucketInsert_items
              (fun it' hit' => hitems e (List.mem_cons_self _ _) it' hit')
              ⟨hk1, hk2, hk3⟩
          rw [he'] at hit
          exact hall it hit
        · exact hitems e' (List.mem_cons_of_mem _ he') it hit
      · intro e' he'
        rcases List.mem_cons.mp he' with he' | he'
        · have hbn : ((bucketInsert e.2 k n).map Prod.fst).Nodup :=
            bucketInsert_nodup (hinodup e (List.mem_cons_self _ _))
          rw [he']
          exact hbn
        · exact hinodup e' (List.mem_cons_of_mem _ he')
    · rw [if_neg he]
      obtain ⟨hnd2, hitems2, hinodup2⟩ := ih hrest
      refine ⟨?_, ?_, ?_⟩
      · rw [List.map_cons, List.nodup_cons]
        refine ⟨?_, hnd2⟩
        rw [hubInsert_keys]
        split
        · exact hnd'.1
        · rw [List.mem_append]
          push_neg
          refine ⟨hnd'.1, ?_⟩
          simp only [List.mem_cons, List.not_mem_nil, or_false]
          exact he
      · intro e' he' it hit
        rcases List.mem_cons.mp he' with he' | he'
        · rw [he'] at hit
          exact hitems e (List.mem_cons_self _ _) it hit
        · exact hitems2 e' he' it hit
      · intro e' he'
        rcases List.mem_cons.mp he' with he' | he'
        · rw [he']
          exact hinodup e (List.mem_cons_self _ _)
        · exact hinodup2 e' he'

theorem buildHub_WF (pc : List ((String × String) × String)) (rows : List TransRow) :
    HubWF pc (buildHub pc rows) := by
  have general : ∀ (rs : List TransRow) (h : Hub), HubWF pc h →
      HubWF pc (rs.foldl (hubStep pc) h) := by
    intro rs
    induction rs with
    | nil => intro h hwf; exact hwf
    | cons r rest ih =>
      intro h hwf
      rw [List.foldl_cons]
      apply ih
      unfold hubStep
      split
      · next hcond => exact hubInsert_WF hwf hcond.2 rfl rfl
      · exact hwf
  exact general rows [] ⟨by simp, by simp, by simp⟩

theorem extract_inv (inp : List (String × List (String × String × Option String))) :
    StInv (extract_forms_and_lemmas inp) ∧
    (extract_forms_and_lemmas inp).concepts = [] ∧
    (extract_forms_and_lemmas inp).senses = [] := by
  have hrow : ∀ (lang : String) (r : String × String × Option String) (st : BState),
      StInv st ∧ st.concepts = [] ∧ st.senses = [] →
      StInv (extractRow lang st r) ∧ (extractRow lang st r).concepts = [] ∧
        (extractRow lang st r).senses = [] := by
    intro lang r st ⟨hinv, hcon, hsen⟩
    have hinv' : StInv { st with forms := st.forms ++ [(lang, r.1, r.2.1, r.2.2.getD "UNKNOWN")] } :=
      ⟨hinv.inj, hinv.bound, hinv.closed, hinv.cidBound, hinv.cBound⟩
    obtain ⟨_, _, hinvE, hsenE, hconE, _⟩ :=
      ensureLemma_spec _ ⟨lang, r.2.1, r.2.2.getD "UNKNOWN"⟩ hinv'
    exact ⟨hinvE, hconE.trans hcon, hsenE.trans hsen⟩
  have hrows : ∀ (lang : String) (rows : List (String × String × Option String))
      (st : BState), StInv st ∧ st.concepts = [] ∧ st.senses = [] →
      StInv (rows.foldl (extractRow lang) st) ∧
        (rows.foldl (extractRow lang) st).concepts = [] ∧
        (rows.foldl (extractRow lang) st).senses = [] := by
    intro lang rows
    induction rows with
    | nil => intro st h; exact h
    | cons r rest ih =>
      intro st h
      rw [List.foldl_cons]
      exact ih _ (hrow lang r st h)
  have hlangs : ∀ (langs : List String) (st : BState),
      StInv st ∧ st.concepts = [] ∧ st.senses = [] →
      StInv (langs.foldl
        (fun st lang =>
          match alookup lang inp with
          | none => st
          | some rows => rows.foldl (extractRow lang) st) st) ∧
      (langs.foldl
        (fun st lang =>
          match alookup lang inp with
          | none => st
          | some rows => rows.foldl (extractRow lang) st) st).concepts = [] ∧
      (langs.foldl
        (fun st lang =>
          match alookup lang inp with
          | none => st
          | some rows => rows.foldl (extractRow lang) st) st).senses = [] := by
    intro langs
    induction langs with
    | nil => intro st h; exact h
    | cons lang rest ih =>
      intro st h
      rw [List.foldl_cons]
      apply ih
      cases alookup lang inp with
      | none => exact h
      | some rows => exact hrows lang rows st h
  have hinit : StInv initState ∧ initState.concepts = [] ∧ initState.senses = [] := by
    refine ⟨⟨?_, ?_, ?_, ?_, ?_⟩, rfl, rfl⟩ <;> intro p hp <;> cases hp
  exact hlangs LANGUAGES initState hinit

/-! ## Supporting lemmas: order and cardinality of one bucket's spec -/

theorem srcKey_ext {k1 k2 : SrcKey} (h1 : k1.lang = k2.lang)
    (h2 : k1.lemmaStr = k2.lemmaStr) (h3 : k1.pos = k2.pos) : k1 = k2 := by
  cases k1
  cases k2
  simp only at h1 h2 h3
  rw [h1, h2, h3]

theorem sortBucket_facts {pc : List ((String × String) × String)} {b : Bucket}
    (hwf : BucketWF pc b) :
    (∀ it ∈ sortBucket b, it.1.lang ≠ "en" ∧ it.2 = it.1.lemmaStr.length ∧
      it.1.pos = (alookup (it.1.lang, it.1.lemmaStr) pc).getD "UNKNOWN") ∧
    ((sortBucket b).map Prod.fst).Nodup ∧
    List.Pairwise keyLe (sortBucket b) := by
  obtain ⟨hitems, hnd⟩ := hwf
  refine ⟨?_, ?_, sortBucket_pairwise b⟩
  · intro it hit
    exact hitems it ((sortBucket_perm b).mem_iff.mp hit)
  · exact (((sortBucket_perm b).map Prod.fst).symm).nodup hnd

theorem group_ordKey_pairwise {pc : List ((String × String) × String)}
    {sb : Bucket} {g : String × Bucket}
    (hsorted : List.Pairwise keyLe sb)
    (hnd : (sb.map Prod.fst).Nodup)
    (hcond : ∀ it ∈ sb, it.2 = it.1.lemmaStr.length ∧
      it.1.pos = (alookup (it.1.lang, it.1.lemmaStr) pc).getD "UNKNOWN")
    (hg : g.2 = sb.filter (fun it => it.1.lang == g.1)) :
    List.Pairwise (fun x y => OrdKey x.1 y.1) g.2 := by
  have hsub : g.2.Sublist sb := by
    rw [hg]
    exact List.filter_sublist sb
  have hmemg : ∀ it ∈ g.2, it.1.lang = g.1 := by
    intro it hit
    rw [hg] at hit
    exact beq_iff_eq.mp (List.mem_filter.mp hit).2
  have P1 : List.Pairwise keyLe g.2 := List.Pairwise.sublist hsub hsorted
  have P2 : List.Pairwise (fun a b => a.1 ≠ b.1) g.2 := by
    have hnodup2 : (g.2.map Prod.fst).Nodup :=
      List.Nodup.sublist (hsub.map Prod.fst) hnd
    exact List.pairwise_map.mp hnodup2
  refine List.Pairwise.imp_of_mem ?_ (P1.and P2)
  intro a b ha hb hab
  obtain ⟨hle, hne⟩ := hab
  obtain ⟨hlen_a, hpos_a⟩ := hcond a (List.Sublist.mem ha hsub)
  obtain ⟨hlen_b, hpos_b⟩ := hcond b (List.Sublist.mem hb hsub)
  obtain ⟨h1, h2⟩ := keyLt_false_parts hle
  constructor
  · rw [← hlen_a, ← hlen_b]
    exact h1
  · intro hlen
    have hfalse := h2 (by rw [hlen_a, hlen_b, hlen])
    cases hq : lexLt a.1.lemmaStr.data b.1.lemmaStr.data with
    | true => rfl
    | false =>
      exfalso
      have hdata := lexLt_connex hq hfalse
      have hstr : a.1.lemmaStr = b.1.lemmaStr := String.ext hdata
      have hlang : a.1.lang = b.1.lang := by rw [hmemg a ha, hmemg b hb]
      have hpos : a.1.pos = b.1.pos := by rw [hpos_a, hpos_b, hlang, hstr]
      exact hne (srcKey_ext hlang hstr hpos)

theorem rankFrom_length : ∀ (items : Bucket) (r : Nat),
    (rankFrom r items).length = items.length := by
  intro items
  induction items with
  | nil => intro r; rfl
  | cons it rest ih =>
    intro r
    simp only [rankFrom, List.length_cons]
    rw [ih (r + 1)]

theorem rankFrom_mem_key {x : SrcKey × Nat} : ∀ {items : Bucket} {r : Nat},
    x ∈ rankFrom r items → ∃ it ∈ items, it.1 = x.1 := by
  intro items r hx
  have hx1 : x.1 ∈ (rankFrom r items).map Prod.fst :=
    List.mem_map_of_mem Prod.fst hx
  rw [rankFrom_keys] at hx1
  rcases List.mem_map.mp hx1 with ⟨it, hit, hfst⟩
  exact ⟨it, hit, hfst⟩

theorem mem_take {α : Type} {x : α} {n : Nat} {l : List α}
    (h : x ∈ l.take n) : x ∈ l :=
  List.Sublist.mem h (List.take_sublist n l)

theorem flatten_mem_sb {sb : Bucket} {x : SrcKey × Nat}
    (hx : x ∈ ((groupByLang sb).map (fun g => rankFrom 1 (g.2.take 3))).flatten) :
    ∃ it ∈ sb, it.1 = x.1 := by
  rcases List.mem_flatten.mp hx with ⟨lst, hlst, hxl⟩
  rcases List.mem_map.mp hlst with ⟨g, hg, rfl⟩
  rcases rankFrom_mem_key hxl with ⟨it, hit, hfst⟩
  have hit2 : it ∈ g.2 := mem_take hit
  obtain ⟨_, gchar, _⟩ := groupByLang_WF sb
  rw [gchar g hg] at hit2
  exact ⟨it, (List.mem_filter.mp hit2).1, hfst⟩

theorem bucketSpec_en_filter {pc : List ((String × String) × String)} {b : Bucket}
    (ck : CKey) (hwf : BucketWF pc b) :
    List.filter (fun kr => kr.1.lang == "en") (bucketSpec ck b) =
      [(⟨"en", ck.gloss, ck.pos⟩, 1)] := by
  obtain ⟨hitems, _, _⟩ := sortBucket_facts hwf
  unfold bucketSpec
  rw [List.filter_append]
  have hnil : List.filter (fun kr => kr.1.lang == "en")
      (((groupByLang (sortBucket b)).map (fun g => rankFrom 1 (g.2.take 3))).flatten) = [] := by
    rw [List.filter_eq_nil_iff]
    intro x hx
    rcases flatten_mem_sb hx with ⟨it, hit, hfst⟩
    simp only [beq_iff_eq]
    rw [← hfst]
    exact (hitems it hit).1
  rw [hnil, List.nil_append]
  rfl

theorem flatten_filter_nil {l : String} (groups : List (String × Bucket))
    (h1 : ∀ g ∈ groups, g.1 ≠ l)
    (h2 : ∀ g ∈ groups, ∀ it ∈ g.2, it.1.lang = g.1) :
    List.filter (fun kr => kr.1.lang == l)
      ((groups.map (fun g => rankFrom 1 (g.2.take 3))).flatten) = [] := by
  rw [List.filter_eq_nil_iff]
  intro x hx
  rcases List.mem_flatten.mp hx with ⟨lst, hlst, hxl⟩
  rcases List.mem_map.mp hlst with ⟨g, hg, rfl⟩
  rcases rankFrom_mem_key hxl with ⟨it, hit, hfst⟩
  simp only [beq_iff_eq]
  rw [← hfst, h2 g hg it (mem_take hit)]
  exact h1 g hg

theorem flatten_filter_le3 {l : String} : ∀ (groups : List (String × Bucket)),
    (groups.map Prod.fst).Nodup →
    (∀ g ∈ groups, ∀ it ∈ g.2, it.1.lang = g.1) →
    (List.filter (fun kr => kr.1.lang == l)
      ((groups.map (fun g => rankFrom 1 (g.2.take 3))).flatten)).length ≤ 3 := by
  intro groups
  induction groups with
  | nil => intro _ _; simp
  | cons g rest ih =>
    intro hnd hlang
    rw [List.map_cons, List.flatten_cons, List.filter_append, List.length_append]
    have hndc := List.nodup_cons.mp (by rw [List.map_cons] at hnd; exact hnd)
    by_cases hgl : g.1 = l
    · have hrest0 : List.filter (fun kr => kr.1.lang == l)
          ((rest.map (fun g => rankFrom 1 (g.2.take 3))).flatten) = [] := by
        apply flatten_filter_nil
        · intro g' hg' hc
          have hm : g'.1 ∈ rest.map Prod.fst := List.mem_map_of_mem Prod.fst hg'
          rw [hc, ← hgl] at hm
          exact hndc.1 hm
        · intro g' hg'
          exact hlang g' (List.mem_cons_of_mem _ hg')
      rw [hrest0]
      simp only [List.length_nil, Nat.add_zero]
      calc (List.filter (fun kr => kr.1.lang == l) (rankFrom 1 (g.2.take 3))).length
          ≤ (rankFrom 1 (g.2.take 3)).length := List.length_filter_le _ _
        _ = (g.2.take 3).length := rankFrom_length _ _
        _ ≤ 3 := by
            rw [List.length_take]
            exact min_le_left _ _
    · have hg0 : List.filter (fun kr => kr.1.lang == l) (rankFrom 1 (g.2.take 3)) = [] := by
        rw [List.filter_eq_nil_iff]
        intro x hx
        rcases rankFrom_mem_key hx with ⟨it, hit, hfst⟩
        simp only [beq_iff_eq]
        rw [← hfst, hlang g (List.mem_cons_self _ _) it (mem_take hit)]
        exact hgl
      rw [hg0]
      simp only [List.length_nil, Nat.zero_add]
      exact ih hndc.2 (fun g' hg' => hlang g' (List.mem_cons_of_mem _ hg'))

theorem bucketSpec_lang_le3 {pc : List ((String × String) × String)} {b : Bucket}
    (ck : CKey) (_hwf : BucketWF pc b) (l : String) (hl : l ≠ "en") :
    (List.filter (fun kr => kr.1.lang == l) (bucketSpec ck b)).length ≤ 3 := by
  unfold bucketSpec
  rw [List.filter_append, List.length_append]
  obtain ⟨gnd, gchar, _⟩ := groupByLang_WF (sortBucket b)
  have hlang : ∀ g ∈ groupByLang (sortBucket b), ∀ it ∈ g.2, it.1.lang = g.1 := by
    intro g hg it hit
    rw [gchar g hg] at hit
    exact beq_iff_eq.mp (List.mem_filter.mp hit).2
  have h1 := @flatten_filter_le3 l (groupByLang (sortBucket b)) gnd hlang
  have hne : ((⟨"en", ck.gloss, ck.pos⟩ : SrcKey).lang == l) = false :=
    beq_eq_false_iff_ne.mpr (fun hc => hl hc.symm)
  have h2 : List.filter (fun kr => kr.1.lang == l)
      [((⟨"en", ck.gloss, ck.pos⟩ : SrcKey), 1)] = ([] : List (SrcKey × Nat)) := by
    simp [hne]
  rw [h2]
  simp only [List.length_nil, Nat.add_zero]
  exact h1

theorem bucketSpec_pairwise {pc : List ((String × String) × String)} {b : Bucket}
    (ck : CKey) (hwf : BucketWF pc b) :
    List.Pairwise specSym (bucketSpec ck b) := by
  obtain ⟨hitems, hnodup, hsorted⟩ := sortBucket_facts hwf
  obtain ⟨gnd, gchar, _⟩ := groupByLang_WF (sortBucket b)
  have hlang : ∀ g ∈ groupByLang (sortBucket b), ∀ it ∈ g.2, it.1.lang = g.1 := by
    intro g hg it hit
    rw [gchar g hg] at hit
    exact beq_iff_eq.mp (List.mem_filter.mp hit).2
  unfold bucketSpec
  rw [List.pairwise_append]
  refine ⟨?_, by simp, ?_⟩
  · rw [List.pairwise_flatten]
    constructor
    · intro lst hlst
      rcases List.mem_map.mp hlst with ⟨g, hg, rfl⟩
      have hOrd : List.Pairwise (fun x y => OrdKey x.1 y.1) g.2 :=
        group_ordKey_pairwise hsorted hnodup
          (fun it hit => ⟨(hitems it hit).2.1, (hitems it hit).2.2⟩) (gchar g hg)
      have hOrdT : List.Pairwise (fun x y => OrdKey x.1 y.1) (g.2.take 3) :=
        List.Pairwise.sublist (List.take_sublist _ _) hOrd
      have A := rankFrom_key_pairwise (g.2.take 3) 1 hOrdT
      have B := rankFrom_rank_pairwise (g.2.take 3) 1
      refine (A.and B).imp ?_
      intro x y hxy
      intro _
      exact ⟨fun _ => hxy.1, fun hlt => absurd hlt (by omega)⟩
    · rw [List.pairwise_map]
      have hgnd : List.Pairwise (fun g1 g2 => g1.1 ≠ g2.1)
          (groupByLang (sortBucket b)) := List.pairwise_map.mp gnd
      refine List.Pairwise.imp_of_mem ?_ hgnd
      intro g1 g2 hg1 hg2 hne x hx y hy hxy
      rcases rankFrom_mem_key hx with ⟨it1, hit1, hf1⟩
      rcases rankFrom_mem_key hy with ⟨it2, hit2, hf2⟩
      have l1 : x.1.lang = g1.1 := by
        rw [← hf1]
        exact hlang g1 hg1 it1 (mem_take hit1)
      have l2 : y.1.lang = g2.1 := by
        rw [← hf2]
        exact hlang g2 hg2 it2 (mem_take hit2)
      exact absurd (show g1.1 = g2.1 by rw [← l1, ← l2]; exact hxy) hne
  · intro x hx y hy
    rw [List.mem_singleton.mp hy]
    intro hxy
    exfalso
    rcases flatten_mem_sb hx with ⟨it, hit, hfst⟩
    exact (hitems it hit).1 (by rw [hfst]; exact hxy)

/-! ## Supporting lemmas: per-concept properties and their preservation -/

theorem senseLangB_true_iff {st : BState} {s : Sense} {l : String} :
    senseLangB st s l = true ↔
      ∃ p ∈ st.lemmas, p.2 = s.lemma_id ∧ p.1.lang = l := by
  simp [senseLangB, List.any_eq_true]

theorem senseLangB_stable {st fin : BState} {s : Sense} {l : String}
    (hlem : ∃ L, fin.lemmas = st.lemmas ++ L) (hinj : idsInj fin.lemmas)
    (hclosed : ∃ q ∈ st.lemmas, q.2 = s.lemma_id) :
    senseLangB fin s l = senseLangB st s l := by
  obtain ⟨L, hL⟩ := hlem
  obtain ⟨q, hq, hq2⟩ := hclosed
  cases hf : senseLangB st s l with
  | true =>
    rcases senseLangB_true_iff.mp hf with ⟨p, hp, hp2, hpl⟩
    exact senseLangB_true_iff.mpr
      ⟨p, by rw [hL]; exact List.mem_append_left _ hp, hp2, hpl⟩
  | false =>
    cases hg : senseLangB fin s l with
    | false => rfl
    | true =>
      exfalso
      rcases senseLangB_true_iff.mp hg with ⟨p, hp, hp2, hpl⟩
      have hqfin : q ∈ fin.lemmas := by
        rw [hL]
        exact List.mem_append_left _ hq
      have hpq : p = q := hinj p hp q hqfin (by rw [hp2, hq2])
      have : senseLangB st s l = true :=
        senseLangB_true_iff.mpr ⟨q, hq, hq2, by rw [← hpq]; exact hpl⟩
      simp [hf] at this

theorem key_mem_stable {st fin : BState} {k : SrcKey} {lid : Nat}
    (hlem : ∃ L, fin.lemmas = st.lemmas ++ L) (hinj : idsInj fin.lemmas)
    (hclosed : ∃ q ∈ st.lemmas, q.2 = lid)
    (hk : (k, lid) ∈ fin.lemmas) : (k, lid) ∈ st.lemmas := by
  obtain ⟨L, hL⟩ := hlem
  obtain ⟨q, hq, hq2⟩ := hclosed
  have hqfin : q ∈ fin.lemmas := by
    rw [hL]
    exact List.mem_append_left _ hq
  have heq : (k, lid) = q := hinj _ hk q hqfin (by rw [hq2])
  rw [heq]
  exact hq

theorem conceptProps_stable {st fin : BState} {cid : Nat}
    (hlem : ∃ L, fin.lemmas = st.lemmas ++ L)
    (hsen : ∃ S, fin.senses = st.senses ++ S ∧ ∀ s ∈ S, s.concept_id ≠ cid)
    (hinj : idsInj fin.lemmas)
    (hclosed : ∀ s ∈ st.senses, ∃ p ∈ st.lemmas, p.2 = s.lemma_id)
    (hp : ConceptProps st cid) : ConceptProps fin cid := by
  obtain ⟨S, hS, hSne⟩ := hsen
  have hcs : conceptSenses fin cid = conceptSenses st cid := by
    unfold conceptSenses
    have hnil : List.filter (fun s => s.concept_id == cid) S = [] :=
      List.filter_eq_nil_iff.mpr (fun s hs => by
        simp only [beq_iff_eq]
        exact hSne s hs)
    rw [hS, List.filter_append, hnil, List.append_nil]
  have hmemst : ∀ s ∈ conceptSenses st cid, s ∈ st.senses :=
    fun s hs => (List.mem_filter.mp hs).1
  have hstab : ∀ s ∈ conceptSenses st cid, ∀ l : String,
      senseLangB fin s l = senseLangB st s l :=
    fun s hs l => senseLangB_stable ⟨_, (hlem.choose_spec : _)⟩ hinj
      (hclosed s (hmemst s hs))
  refine ⟨?_, ?_, ?_, ?_⟩
  · rw [hcs, List.filter_congr (fun s hs => hstab s hs "en")]
    exact hp.enOne
  · intro s hs hlang
    rw [hcs] at hs
    refine hp.enRank s hs ?_
    rw [← hstab s hs "en"]
    exact hlang
  · intro l hl
    rw [hcs, List.filter_congr (fun s hs => hstab s hs l)]
    exact hp.langLe3 l hl
  · intro s1 hs1 s2 hs2 l k1 k2 hl1 hl2 hk1 hk2 hrank
    rw [hcs] at hs1 hs2
    refine hp.ordered s1 hs1 s2 hs2 l k1 k2 ?_ ?_ ?_ ?_ hrank
    · rw [← hstab s1 hs1 l]
      exact hl1
    · rw [← hstab s2 hs2 l]
      exact hl2
    · exact key_mem_stable hlem hinj (hclosed s1 (hmemst s1 hs1)) hk1
    · exact key_mem_stable hlem hinj (hclosed s2 (hmemst s2 hs2)) hk2

theorem processBucket_props {pc : List ((String × String) × String)}
    (st : BState) (ck : CKey) (b : Bucket)
    (hinv : StInv st) (hfresh : ck ∉ st.concepts.map Prod.fst)
    (hbwf : BucketWF pc b) :
    ConceptProps (processBucket st (ck, b)) st.next_concept_id := by
  obtain ⟨hcon, hnc, hlem, hinvR, new, hsen, hf⟩ :=
    processBucket_spec st ck b hinv hfresh
  have hnewcid : ∀ s ∈ new, s.concept_id = st.next_concept_id := by
    intro s hs
    rcases forall₂_mem_left hf s hs with ⟨kr, _, hr⟩
    exact hr.1
  have hbcs : conceptSenses (processBucket st (ck, b)) st.next_concept_id = new := by
    unfold conceptSenses
    rw [hsen]
    exact conceptSenses_append_eq _ _ _
      (fun s hs => Nat.ne_of_lt (hinv.cidBound s hs)) hnewcid
  have hpred : ∀ (l : String) (s : Sense) (kr : SrcKey × Nat),
      senseMatches (processBucket st (ck, b)) st.next_concept_id s kr →
      senseLangB (processBucket st (ck, b)) s l = (kr.1.lang == l) := by
    intro l s kr hm
    cases hq : (kr.1.lang == l) with
    | true =>
      exact senseLangB_true_iff.mpr
        ⟨(kr.1, s.lemma_id), hm.2.2, rfl, beq_iff_eq.mp hq⟩
    | false =>
      cases hg : senseLangB (processBucket st (ck, b)) s l with
      | false => rfl
      | true =>
        exfalso
        rcases senseLangB_true_iff.mp hg with ⟨p, hp, hp2, hpl⟩
        have hpk : p = (kr.1, s.lemma_id) :=
          hinvR.inj p hp _ hm.2.2 (by rw [hp2])
        rw [hpk] at hpl
        rw [beq_eq_false_iff_ne] at hq
        exact hq hpl
  refine ⟨?_, ?_, ?_, ?_⟩
  · rw [hbcs, forall₂_filter_length hf (hpred "en"), bucketSpec_en_filter ck hbwf]
    rfl
  · intro s hs hlang
    rw [hbcs] at hs
    rcases forall₂_mem_left hf s hs with ⟨kr, hkr, hr⟩
    have hpl := hpred "en" s kr hr
    rw [hlang] at hpl
    have hkren : kr ∈ List.filter (fun kr => kr.1.lang == "en") (bucketSpec ck b) :=
      List.mem_filter.mpr ⟨hkr, hpl.symm⟩
    rw [bucketSpec_en_filter ck hbwf] at hkren
    rw [hr.2.1, List.mem_singleton.mp hkren]
  · intro l hl
    rw [hbcs, forall₂_filter_length hf (hpred l)]
    exact bucketSpec_lang_le3 ck hbwf l hl
  · intro s1 hs1 s2 hs2 l k1 k2 hl1 hl2 hk1 hk2 hrank
    rw [hbcs] at hs1 hs2
    have hQ2 : List.Pairwise
        (fun x y => ∀ (l : String) (k1 k2 : SrcKey),
          senseLangB (processBucket st (ck, b)) x l = true →
          senseLangB (processBucket st (ck, b)) y l = true →
          (k1, x.lemma_id) ∈ (processBucket st (ck, b)).lemmas →
          (k2, y.lemma_id) ∈ (processBucket st (ck, b)).lemmas →
          ((x.rank < y.rank → OrdKey k1 k2) ∧ (y.rank < x.rank → OrdKey k2 k1)))
        new := by
      refine forall₂_pairwise hf (bucketSpec_pairwise ck hbwf) ?_
      intro x y a' b' ha hb hq l' k1' k2' hla hlb hka hkb
      have e1 : k1' = a'.1 := by
        have := hinvR.inj (k1', x.lemma_id) hka (a'.1, x.lemma_id) ha.2.2 rfl
        exact congrArg Prod.fst this
      have e2 : k2' = b'.1 := by
        have := hinvR.inj (k2', y.lemma_id) hkb (b'.1, y.lemma_id) hb.2.2 rfl
        exact congrArg Prod.fst this
      have la : a'.1.lang = l' := by
        have := hpred l' x a' ha
        rw [hla] at this
        exact beq_iff_eq.mp this.symm
      have lb : b'.1.lang = l' := by
        have := hpred l' y b' hb
        rw [hlb] at this
        exact beq_iff_eq.mp this.symm
      have hsq := hq (by rw [la, lb])
      constructor
      · intro hr
        rw [e1, e2]
        exact hsq.1 (by rw [← ha.2.1, ← hb.2.1]; exact hr)
      · intro hr
        rw [e1, e2]
        exact hsq.2 (by rw [← ha.2.1, ← hb.2.1]; exact hr)
    by_cases heq : s1 = s2
    · exfalso
      rw [heq] at hrank
      exact Nat.lt_irrefl _ hrank
    · have hsymm : Symmetric
          (fun (x y : Sense) => ∀ (l : String) (k1 k2 : SrcKey),
            senseLangB (processBucket st (ck, b)) x l = true →
            senseLangB (processBucket st (ck, b)) y l = true →
            (k1, x.lemma_id) ∈ (processBucket st (ck, b)).lemmas →
            (k2, y.lemma_id) ∈ (processBucket st (ck, b)).lemmas →
            ((x.rank < y.rank → OrdKey k1 k2) ∧ (y.rank < x.rank → OrdKey k2 k1))) := by
        intro x y h l' k1' k2' hla hlb hka hkb
        have := h l' k2' k1' hlb hla hkb hka
        exact ⟨this.2, this.1⟩
      have := (hQ2.forall hsymm) hs1 hs2 heq l k1 k2 hl1 hl2 hk1 hk2
      exact this.1 hrank

theorem hubFold_props (pc : List ((String × String) × String)) : ∀ (h : Hub)
    (st : BState), StInv st → HubWF pc h →
    (∀ e ∈ h, e.1 ∉ st.concepts.map Prod.fst) →
    (∀ c ∈ st.concepts, ConceptProps st c.2) →
    StInv (h.foldl processBucket st) ∧
    ∀ c ∈ (h.foldl processBucket st).concepts,
      ConceptProps (h.foldl processBucket st) c.2 := by
  intro h
  induction h with
  | nil =>
    intro st hinv _ _ hprops
    exact ⟨hinv, hprops⟩
  | cons e rest ih =>
    intro st hinv hwf hfreshAll hprops
    obtain ⟨hnd, hitems, hinodup⟩ := hwf
    have hndc := List.nodup_cons.mp (by rw [List.map_cons] at hnd; exact hnd)
    have hbwf : BucketWF pc e.2 :=
      ⟨hitems e (List.mem_cons_self _ _), hinodup e (List.mem_cons_self _ _)⟩
    have hfresh := hfreshAll e (List.mem_cons_self _ _)
    obtain ⟨hcon1, hnc1, hlem1, hinv1, new, hsen1, hf1⟩ :=
      processBucket_spec st e.1 e.2 hinv hfresh
    have hnewprops : ConceptProps (processBucket st (e.1, e.2)) st.next_concept_id :=
      processBucket_props st e.1 e.2 hinv hfresh hbwf
    have holdprops : ∀ c ∈ st.concepts, ConceptProps (processBucket st (e.1, e.2)) c.2 := by
      intro c hc
      refine conceptProps_stable hlem1 ⟨new, hsen1, ?_⟩ hinv1.inj hinv.closed
        (hprops c hc)
      intro s hs
      rcases forall₂_mem_left hf1 s hs with ⟨kr, _, hr⟩
      rw [hr.1]
      exact (Nat.ne_of_lt (hinv.cBound c hc)).symm
    have hprops1 : ∀ c ∈ (processBucket st (e.1, e.2)).concepts,
        ConceptProps (processBucket st (e.1, e.2)) c.2 := by
      intro c hc
      rw [hcon1] at hc
      rcases List.mem_append.mp hc with hc | hc
      · exact holdprops c hc
      · rw [List.mem_singleton.mp hc]
        exact hnewprops
    have hfresh1 : ∀ e' ∈ rest, e'.1 ∉ (processBucket st (e.1, e.2)).concepts.map Prod.fst := by
      intro e' he'
      rw [hcon1, List.map_append, List.mem_append]
      push_neg
      constructor
      · exact hfreshAll e' (List.mem_cons_of_mem _ he')
      · simp only [List.map_cons, List.map_nil, List.mem_cons, List.not_mem_nil,
          or_false]
        intro hc
        have : e.1 ∈ rest.map Prod.fst := by
          rw [← hc]
          exact List.mem_map_of_mem Prod.fst he'
        exact hndc.1 this
    have hwfrest : HubWF pc rest :=
      ⟨hndc.2, fun e' he' => hitems e' (List.mem_cons_of_mem _ he'),
        fun e' he' => hinodup e' (List.mem_cons_of_mem _ he')⟩
    rw [List.foldl_cons]
    exact ih (processBucket st e) hinv1 hwfrest hfresh1 hprops1

theorem pipeline_props (inp : List (String × List (String × String × Option String)))
    (rows : List TransRow) :
    StInv (buildPipeline inp rows) ∧
    ∀ c ∈ (buildPipeline inp rows).concepts,
      ConceptProps (buildPipeline inp rows) c.2 := by
  obtain ⟨hinv0, hcon0, _⟩ := extract_inv inp
  exact hubFold_props (buildPosCache (extract_forms_and_lemmas inp).lemmas)
    (buildHub (buildPosCache (extract_forms_and_lemmas inp).lemmas) rows)
    (extract_forms_and_lemmas inp) hinv0
    (buildHub_WF _ rows)
    (fun e _ => by rw [hcon0]; simp)
    (fun c hc => by rw [hcon0] at hc; cases hc)

/-! ## Claims C1, C2, C3: shape of every concept's sense list -/

/-- Claim C1: for every concept produced by a build of the Concept Clusterer
(lexicon extraction followed by `build_concepts_from_translations`, on any
input), the in-memory senses list contains exactly one sense linking that
concept to a pivot-language (English) lemma, and that sense has rank 1. -/
theorem C1_unique_pivot_sense
    (inp : List (String × List (String × String × Option String)))
    (rows : List TransRow) :
    ∀ c ∈ (buildPipeline inp rows).concepts,
      ((conceptSenses (buildPipeline inp rows) c.2).filter
        (fun s => senseLangB (buildPipeline inp rows) s "en")).length = 1 ∧
      ∀ s ∈ conceptSenses (buildPipeline inp rows) c.2,
        senseLangB (buildPipeline inp rows) s "en" = true → s.rank = 1 := by
  intro c hc
  have h := (pipeline_props inp rows).2 c hc
  exact ⟨h.enOne, h.enRank⟩

/-- Witness for C1: a one-record build — the concept `("dog", "NOUN")` has
exactly one English sense. -/
theorem C1_unique_pivot_sense_witness :
    ((conceptSenses (buildPipeline [("es", [("perro", "perro", some "NOUN")])]
        [⟨"perro", "es", "dog", "en"⟩]) 1).filter
      (fun s => senseLangB (buildPipeline [("es", [("perro", "perro", some "NOUN")])]
        [⟨"perro", "es", "dog", "en"⟩]) s "en")).length = 1 :=
  (C1_unique_pivot_sense [("es", [("perro", "perro", some "NOUN")])]
    [⟨"perro", "es", "dog", "en"⟩] ((⟨"dog", "NOUN"⟩ : CKey), 1) (by decide)).1

/-- Claim C2: for every concept produced by the Concept Clusterer and every
non-pivot language, at most 3 senses link that concept to lemmas of that
language. -/
theorem C2_nonpivot_at_most_three
    (inp : List (String × List (String × String × Option String)))
    (rows : List TransRow) :
    ∀ c ∈ (buildPipeline inp rows).concepts, ∀ l : String, l ≠ "en" →
      ((conceptSenses (buildPipeline inp rows) c.2).filter
        (fun s => senseLangB (buildPipeline inp rows) s l)).length ≤ 3 :=
  fun c hc l hl => ((pipeline_props inp rows).2 c hc).langLe3 l hl

/-- Witness for C2 at the language `"es"` of a one-record build. -/
theorem C2_nonpivot_at_most_three_witness :
    ((conceptSenses (buildPipeline [("es", [("perro", "perro", some "NOUN")])]
        [⟨"perro", "es", "dog", "en"⟩]) 1).filter
      (fun s => senseLangB (buildPipeline [("es", [("perro", "perro", some "NOUN")])]
        [⟨"perro", "es", "dog", "en"⟩]) s "es")).length ≤ 3 :=
  C2_nonpivot_at_most_three [("es", [("perro", "perro", some "NOUN")])]
    [⟨"perro", "es", "dog", "en"⟩] ((⟨"dog", "NOUN"⟩ : CKey), 1) (by decide)
    "es" (by decide)

/-- Claim C3: for every concept and every language, senses of that concept
for that language taken in ascending rank order have non-decreasing lemma
lengths, and equal-length lemmas are in (code-point) lexicographic order. -/
theorem C3_rank_order
    (inp : List (String × List (String × String × Option String)))
    (rows : List TransRow) :
    ∀ c ∈ (buildPipeline inp rows).concepts,
      ∀ s1 ∈ conceptSenses (buildPipeline inp rows) c.2,
      ∀ s2 ∈ conceptSenses (buildPipeline inp rows) c.2,
      ∀ (l : String) (k1 k2 : SrcKey),
      senseLangB (buildPipeline inp rows) s1 l = true →
      senseLangB (buildPipeline inp rows) s2 l = true →
      (k1, s1.lemma_id) ∈ (buildPipeline inp rows).lemmas →
      (k2, s2.lemma_id) ∈ (buildPipeline inp rows).lemmas →
      s1.rank < s2.rank →
      k1.lemmaStr.length ≤ k2.lemmaStr.length ∧
        (k1.lemmaStr.length = k2.lemmaStr.length →
          lexLt k1.lemmaStr.data k2.lemmaStr.data = true) :=
  fun c hc s1 hs1 s2 hs2 l k1 k2 hl1 hl2 hk1 hk2 hrank =>
    ((pipeline_props inp rows).2 c hc).ordered s1 hs1 s2 hs2 l k1 k2 hl1 hl2
      hk1 hk2 hrank

/-- Witness for C3: a build with two Spanish words for one concept —
`"can"` (rank 1) is shorter than `"perro"` (rank 2). -/
theorem C3_rank_order_witness :
    (⟨"es", "can", "UNKNOWN"⟩ : SrcKey).lemmaStr.length ≤
      (⟨"es", "perro", "UNKNOWN"⟩ : SrcKey).lemmaStr.length ∧
    ((⟨"es", "can", "UNKNOWN"⟩ : SrcKey).lemmaStr.length =
        (⟨"es", "perro", "UNKNOWN"⟩ : SrcKey).lemmaStr.length →
      lexLt (⟨"es", "can", "UNKNOWN"⟩ : SrcKey).lemmaStr.data
        (⟨"es", "perro", "UNKNOWN"⟩ : SrcKey).lemmaStr.data = true) :=
  C3_rank_order []
    [⟨"perro", "es", "dog", "en"⟩, ⟨"can", "es", "dog", "en"⟩]
    ((⟨"dog", "UNKNOWN"⟩ : CKey), 1) (by decide)
    ⟨1, 1, 1⟩ (by decide) ⟨2, 1, 2⟩ (by decide) "es"
    ⟨"es", "can", "UNKNOWN"⟩ ⟨"es", "perro", "UNKNOWN"⟩
    (by decide) (by decide) (by decide) (by decide) (by decide)

end FluentWhisper


